import Mathlib

/-!
Verification of the TheSoldMyEmail-DomainList repository.

This file gives a shallow embedding of the two Python source files
`export_issues_domains.py` and `merge.py` and proves properties of the
embedding.  Strings are modelled by Lean `String` / `List Char`; the
Python string primitives used by the code (`strip`, `lower`, `split`,
`splitlines`, substring test) and the two regular expressions of
`extract_from_body` are modelled character by character over the ASCII
fragment the data lives in.  Dictionaries (`csv.DictReader` rows,
`db_index`, `domain_map`) are modelled by ordered association lists,
which reproduces Python's insertion-ordered `dict` semantics.
-/

/-! ### Python string primitives -/

/-- Python whitespace for `str.strip()` / `str.split()` / `\s` (ASCII part). -/
def isPySpace (c : Char) : Bool :=
  c = ' ' ∨ c = '\t' ∨ c = '\n' ∨ c = '\r' ∨ c = '\x0b' ∨ c = '\x0c'

/-- `str.strip(chars)` on a char list: drop members of `cs` from both ends. -/
def stripCharsL (cs : List Char) (l : List Char) : List Char :=
  ((l.dropWhile (· ∈ cs)).reverse.dropWhile (· ∈ cs)).reverse

/-- `str.strip()` on a char list. -/
def pyStripL (l : List Char) : List Char :=
  ((l.dropWhile isPySpace).reverse.dropWhile isPySpace).reverse

/-- `str.strip()` on a `String`. -/
def pyStrip (s : String) : String :=
  ⟨pyStripL s.data⟩

/-- `str.lower()` (ASCII model, matching `Char.toLower`). -/
def pyLowerL (l : List Char) : List Char :=
  l.map Char.toLower

/-- `str.split()` with no argument: split on whitespace runs, no empty parts. -/
def splitWsAux : List Char → List Char → List (List Char)
  | [], acc => if acc = [] then [] else [acc.reverse]
  | c :: cs, acc =>
    if isPySpace c then
      if acc = [] then splitWsAux cs [] else acc.reverse :: splitWsAux cs []
    else splitWsAux cs (c :: acc)

def pySplitWs (l : List Char) : List (List Char) :=
  splitWsAux l []

/-- `str.splitlines()` (ASCII line breaks `\n`, `\r\n`, `\r`, `\x0b`, `\x0c`). -/
def splitLinesAux : List Char → List Char → List (List Char)
  | [], acc => if acc = [] then [] else [acc.reverse]
  | '\r' :: '\n' :: cs, acc => acc.reverse :: splitLinesAux cs []
  | c :: cs, acc =>
    if c = '\n' ∨ c = '\r' ∨ c = '\x0b' ∨ c = '\x0c' then
      acc.reverse :: splitLinesAux cs []
    else splitLinesAux cs (c :: acc)

def splitLines (l : List Char) : List (List Char) :=
  splitLinesAux l []

/-- Python `needle in haystack` substring test. -/
def hasSub (needle : List Char) : List Char → Bool
  | [] => needle.isEmpty
  | c :: cs => needle.isPrefixOf (c :: cs) || hasSub needle cs

/-! ### `normalize_host` (export_issues_domains.py, lines 35-57) -/

/-- `normalize_host`: strip + lower, drop userinfo (after first `@`),
drop port (after first `:`), require a dot. -/
def normalize_host (host : String) : String :=
  let h := pyLowerL (pyStripL host.data)
  if h = [] then ""
  else
    let h := if h.contains '@' then (h.dropWhile (· ≠ '@')).drop 1 else h
    let h := if h.contains ':' then h.takeWhile (· ≠ ':') else h
    if h.contains '.' then ⟨h⟩ else ""

/-! ### `clickable_domain` (lines 60-76) -/

def clickable_domain (domain : String) : String :=
  let d := pyLowerL (pyStripL domain.data)
  if d = [] then ""
  else
    let d := if "www.".data.isPrefixOf d then d.drop 4 else d
    if d = [] then "" else ⟨"www.".data ++ d⟩

/-! ### `urlparse` fragment used by `extract_from_title`

Every URL handed to `urlparse` in the title path starts with the literal
`http://` or `https://`, so only the netloc/path/params/query/fragment
split after such a scheme is modelled. -/

/-- Split params: cut at the first `;` at or after the last `/`
(or the first `;` when there is no `/`), as `urllib.parse._splitparams`. -/
def cutParams (p : List Char) : List Char :=
  if p.contains '/' then
    let afterSlash := (p.reverse.takeWhile (· ≠ '/')).reverse
    if afterSlash.contains ';' then
      p.take (p.length - afterSlash.length) ++ afterSlash.takeWhile (· ≠ ';')
    else p
  else if p.contains ';' then p.takeWhile (· ≠ ';') else p

/-- `(netloc, path)` of `scheme://rest`, given `rest`. -/
def netlocPath (rest : List Char) : List Char × List Char :=
  let netloc := rest.takeWhile (fun c => c ≠ '/' ∧ c ≠ '?' ∧ c ≠ '#')
  let tail0 := rest.drop netloc.length
  let noFrag := tail0.takeWhile (· ≠ '#')
  let noQuery := noFrag.takeWhile (· ≠ '?')
  (netloc, cutParams noQuery)

/-! ### `extract_from_title` (lines 79-108) -/

/-- The punctuation set stripped from the title candidate:
space, comma, semicolon, parens, brackets, braces, angle brackets, quotes. -/
def titlePunct : List Char :=
  [' ', ',', ';', '(', ')', '[', ']', '\x7b', '\x7d', '<', '>', '\x22', '\x27']

/-- Token selection: first token containing a dot or a slash, else the
first token (`tokens[0]`), else nothing. -/
def titleCandidate (title : String) : Option (List Char) :=
  let tokens := pySplitWs (pyStripL title.data)
  match tokens.find? (fun t => t.contains '.' || t.contains '/') with
  | some t => some t
  | none => tokens.head?

/-- Scheme completion, `urlparse`, and `parsed.netloc or parsed.path`. -/
def hostFromCandidate (cand : List Char) : List Char :=
  let url :=
    if "http://".data.isPrefixOf cand ∨ "https://".data.isPrefixOf cand
    then cand else "http://".data ++ cand
  let rest :=
    if "http://".data.isPrefixOf url then url.drop 7 else url.drop 8
  let np := netlocPath rest
  if np.1 = [] then np.2 else np.1

def extract_from_title (title : String) : String :=
  if title = "" then ""
  else
    match titleCandidate title with
    | none => ""
    | some cand =>
      let cand := stripCharsL titlePunct cand
      if cand = [] then ""
      else normalize_host ⟨hostFromCandidate cand⟩

/-! ### The two body regexes (lines 123, 129, 136, 142)

`re.search(r'https?://([^\s/)+]+)', _, re.IGNORECASE)` and
`re.search(r'\b((?:[a-z0-9-]+\.)+[a-z]{2,})\b', _, re.IGNORECASE)`,
modelled with Python's leftmost greedy-with-backtracking semantics. -/

/-- Characters allowed in the URL host capture `[^\s/)+]+`. -/
def urlCapChar (c : Char) : Bool :=
  ¬ isPySpace c ∧ c ≠ '/' ∧ c ≠ ')' ∧ c ≠ '+'

/-- Case-insensitive match of a literal ASCII (lowercase) prefix. -/
def ciPrefix : List Char → List Char → Option (List Char)
  | [], l => some l
  | _, [] => none
  | p :: ps, c :: cs => if c.toLower = p then ciPrefix ps cs else none

/-- Try to match `https?://([^\s/)+]+)` at the head of `l`;
returns (capture, rest after the match). -/
def matchHttpAt (l : List Char) : Option (List Char × List Char) :=
  match ciPrefix "http".data l with
  | none => none
  | some l1 =>
    let viaS :=
      match ciPrefix "s".data l1 with
      | some l2 => ciPrefix "://".data l2
      | none => none
    let l3? := match viaS with | some l3 => some l3 | none => ciPrefix "://".data l1
    match l3? with
    | none => none
    | some l3 =>
      let cap := l3.takeWhile urlCapChar
      if cap = [] then none else some (cap, l3.drop cap.length)

/-- `re.search` for the URL regex: first match scanning left to right. -/
def findUrl : List Char → Option (List Char × List Char)
  | [] => none
  | c :: cs =>
    match matchHttpAt (c :: cs) with
    | some r => some r
    | none => findUrl cs

/-- `re.findall` for the URL regex (captures, non-overlapping). -/
def findAllUrlAux : Nat → List Char → List (List Char)
  | 0, _ => []
  | fuel + 1, l =>
    match findUrl l with
    | none => []
    | some (cap, rest) => cap :: findAllUrlAux fuel rest

def findAllUrl (l : List Char) : List (List Char) :=
  findAllUrlAux (l.length + 1) l

/-- `\w` word character (ASCII model). -/
def isWordChar (c : Char) : Bool := c.isAlphanum || c = '_'

/-- `[a-z0-9-]` under IGNORECASE (ASCII). -/
def isSegChar (c : Char) : Bool := c.isAlphanum || c = '-'

def isWordOpt : Option Char → Bool
  | none => false
  | some c => isWordChar c

/-- `\b`: word-ness differs on the two sides of the position. -/
def wordBnd (a b : Option Char) : Bool := isWordOpt a != isWordOpt b

/-- Greedily parse `(?:[a-z0-9-]+\.)+` units: each unit is a maximal
nonempty run of segment chars followed by a literal dot. -/
def parseUnits : Nat → List Char → List (List Char) × List Char
  | 0, l => ([], l)
  | fuel + 1, l =>
    let seg := l.takeWhile isSegChar
    if seg = [] then ([], l)
    else
      match l.drop seg.length with
      | '.' :: rest =>
        let (us, r) := parseUnits fuel rest
        ((seg ++ ['.']) :: us, r)
      | _ => ([], l)

/-- Backtrack the final `[a-z]{2,}\b`: try the longest letter run first,
shrinking down to 2; the char after the match must be non-word. -/
def tryTailLen : Nat → List Char → List Char → Option (List Char × List Char)
  | 0, _, _ => none
  | 1, _, _ => none
  | n + 2, letters, rest =>
    if n + 2 ≤ letters.length ∧ ¬ isWordOpt ((letters.drop (n + 2) ++ rest).head?)
    then some (letters.take (n + 2), letters.drop (n + 2) ++ rest)
    else tryTailLen (n + 1) letters rest

def tryTail (l : List Char) : Option (List Char × List Char) :=
  let letters := l.takeWhile (fun c => c.isAlpha)
  tryTailLen letters.length letters (l.drop letters.length)

/-- Backtrack over the unit count (units given reversed: head = last unit):
try the tail match with all units, else give the last unit back. -/
def tryUnitsRev : List (List Char) → List Char → Option (List Char × List Char)
  | [], _ => none
  | u :: usrev, r =>
    match tryTail r with
    | some (cap, rest) => some (((u :: usrev).reverse).flatten ++ cap, rest)
    | none => tryUnitsRev usrev (u ++ r)

/-- Try the bare-domain regex at the head of `l` (`prev` = char before `l`). -/
def matchBareAt (prev : Option Char) (l : List Char) : Option (List Char × List Char) :=
  if wordBnd prev l.head? then
    let (us, r) := parseUnits l.length l
    tryUnitsRev us.reverse r
  else none

/-- `re.search` for the bare-domain regex. -/
def findBareAux : Option Char → List Char → Option (List Char × List Char)
  | _, [] => none
  | prev, c :: cs =>
    match matchBareAt prev (c :: cs) with
    | some r => some r
    | none => findBareAux (some c) cs

def findBare (l : List Char) : Option (List Char × List Char) :=
  findBareAux none l

/-- `re.findall` for the bare-domain regex. -/
def findAllBareAux : Nat → Option Char → List Char → List (List Char)
  | 0, _, _ => []
  | fuel + 1, prev, l =>
    match findBareAux prev l with
    | none => []
    | some (cap, rest) => cap :: findAllBareAux fuel cap.getLast? rest

def findAllBare (l : List Char) : List (List Char) :=
  findAllBareAux (l.length + 1) none l

/-! ### `SKIP_HOSTS`, `extract_from_body`, `extract_domain` (lines 28-167) -/

def SKIP_HOSTS : List String := ["github.com", "www.github.com", "api.github.com"]

/-- `normalize_host` + the `if host and host not in SKIP_HOSTS` guard used
at every body-scanning return site. -/
def checkHost (h : String) : Option String :=
  let h := normalize_host h
  if h ≠ "" ∧ h ∉ SKIP_HOSTS then some h else none

/-- Tier 1: a line containing `domain` — URL search, then bare-domain search. -/
def lineHit (line : List Char) : Option String :=
  if hasSub "domain".data (pyLowerL line) then
    match (findUrl line).bind (fun m => checkHost ⟨m.1⟩) with
    | some h => some h
    | none => (findBare line).bind (fun m => checkHost ⟨m.1⟩)
  else none

def extract_from_body (body : String) : String :=
  if body = "" then ""
  else
    let text := pyStripL body.data
    if text = [] then ""
    else
      match (splitLines text).findSome? lineHit with
      | some h => h
      | none =>
        match (findAllUrl text).findSome? (fun cap => checkHost ⟨cap⟩) with
        | some h => h
        | none =>
          match (findAllBare text).findSome? (fun cap => checkHost ⟨cap⟩) with
          | some h => h
          | none => ""

/-- `extract_domain`: body first, then title; returns (domain, source). -/
def extract_domain (title body : String) : String × String :=
  let d := extract_from_body body
  if d ≠ "" then (d, "body")
  else
    let d := extract_from_title title
    if d ≠ "" then (d, "title") else ("", "none")

/-- The `domain` column value written by the export pipeline (line 285):
`clickable_domain(raw_domain)` for the extracted raw domain. -/
def exportDomainField (title body : String) : String :=
  clickable_domain (extract_domain title body).1

/-! ### Rows and tables (merge.py)

A CSV row is an insertion-ordered mapping from field name to string
value (Python `dict`); a table is its header (field list) plus rows. -/

abbrev Row := List (String × String)

/-- Python `dict` update `d[k] = v`: replace in place, else append. -/
def setA {α β : Type} [DecidableEq α] : List (α × β) → α → β → List (α × β)
  | [], k, v => [(k, v)]
  | (k1, v1) :: t, k, v =>
    if k1 = k then (k, v) :: t else (k1, v1) :: setA t k v

/-- `(row.get(k) or "")`: `None`/missing and `""` both give `""`. -/
def pyGet (r : Row) (k : String) : String :=
  (r.lookup k).getD ""

/-- The stripped key of a row: `(row.get(key_field) or "").strip()`. -/
def rowKey (kf : String) (r : Row) : String :=
  pyStrip (pyGet r kf)

/-! ### `build_fieldnames` (merge.py lines 35-46) -/

def insertFn (acc : List String) (fn : String) : List String :=
  if fn ∈ acc then acc else acc ++ [fn]

def build_fieldnames (db_fields src_fields : List String) : List String :=
  src_fields.foldl insertFn (db_fields.foldl insertFn [])

/-! ### `write_csv_dict` row normalization (lines 26-32)

`out = {fn: row.get(fn, "") for fn in fieldnames}`. -/

def normalizeRow (fns : List String) (r : Row) : Row :=
  fns.map (fun fn => (fn, (r.lookup fn).getD ""))

/-! ### `merge_rows` (lines 49-81) -/

/-- `f"__NO_KEY__{len(ordered_keys)}"`. -/
def pseudoKey (n : Nat) : String :=
  "__NO_KEY__" ++ toString n

structure MSt where
  idx : List (String × Row)
  keys : List String
deriving DecidableEq, Repr

/-- First loop of `merge_rows`: index the persistent rows by key,
first occurrence wins; empty-key rows get a synthetic key. -/
def phase1Step (kf : String) (st : MSt) (row : Row) : MSt :=
  let key := rowKey kf row
  if key = "" then
    let p := pseudoKey st.keys.length
    ⟨setA st.idx p row, st.keys ++ [p]⟩
  else if (st.idx.lookup key).isSome then st
  else ⟨setA st.idx key row, st.keys ++ [key]⟩

/-- Inner loop of the source pass: fill only empty fields
(`if sval and not dval: drow[fn] = sval`). -/
def fillRow (srcFns : List String) (srow drow : Row) : Row :=
  srcFns.foldl
    (fun d fn =>
      let sval := pyStrip (pyGet srow fn)
      let dval := pyStrip (pyGet d fn)
      if sval ≠ "" ∧ dval = "" then setA d fn sval else d)
    drow

/-- Second loop of `merge_rows`: insert new keys, fill empty fields of
existing rows; source rows with an empty key are skipped. -/
def phase2Step (kf : String) (srcFns : List String) (st : MSt) (srow : Row) : MSt :=
  let skey := rowKey kf srow
  if skey = "" then st
  else
    match st.idx.lookup skey with
    | none => ⟨setA st.idx skey srow, st.keys ++ [skey]⟩
    | some drow => ⟨setA st.idx skey (fillRow srcFns srow drow), st.keys⟩

def merge_rows (db_rows src_rows : List Row) (kf : String) (srcFns : List String) :
    List Row :=
  let st1 := db_rows.foldl (phase1Step kf) ⟨[], []⟩
  let st2 := src_rows.foldl (phase2Step kf srcFns) st1
  st2.keys.map (fun k => (st2.idx.lookup k).getD [])

/-! ### `main` of merge.py (lines 181-227)

`read_csv_dict` returns `([], [])` for a missing file, so a missing
source and an empty source coincide.  The outcome records the exit code
(the script always returns normally, exit status 0), whether an abort
message was printed, and what is written to the persistent table path
(`none` = no write).  Rows pass through `write_csv_dict`, which
normalizes each row to the field list. -/

structure MergeOutcome where
  exitCode : Nat
  abortMessage : Bool
  written : Option (List String × List Row)
deriving DecidableEq, Repr

def readTable (t : Option (List String × List Row)) : List String × List Row :=
  t.getD ([], [])

def merge_main (src db : Option (List String × List Row)) : MergeOutcome :=
  let (src_fields, src_rows) := readTable src
  if src_rows = [] then ⟨0, true, none⟩
  else if "issue_number" ∉ src_fields then ⟨0, true, none⟩
  else
    let (db_fields, db_rows) := readTable db
    if db_rows = [] then ⟨0, false, some (src_fields, src_rows.map (normalizeRow src_fields))⟩
    else
      let fns := build_fieldnames db_fields src_fields
      ⟨0, false, some (fns, (merge_rows db_rows src_rows "issue_number" src_fields).map (normalizeRow fns))⟩

/-- One merge at the table level (the written persistent table), as a
total function of the two tables; this is the `written` component of a
successful `merge_main`. -/
def mergeOnce (db src : List String × List Row) : List String × List Row :=
  if db.2 = [] then (src.1, src.2.map (normalizeRow src.1))
  else
    let fns := build_fieldnames db.1 src.1
    (fns, (merge_rows db.2 src.2 "issue_number" src.1).map (normalizeRow fns))

/-! ### `normalize_domain_for_dup` (merge.py lines 84-97) -/

def normalize_domain_for_dup (domain : String) : String :=
  if domain = "" then ""
  else
    let d := pyLowerL (pyStripL domain.data)
    let d := if "http://".data.isPrefixOf d then d.drop 7
             else if "https://".data.isPrefixOf d then d.drop 8 else d
    let d := if "www.".data.isPrefixOf d then d.drop 4 else d
    ⟨d⟩

/-! ### duplicate-domain report (merge.py lines 122-178) -/

def IGNORE_DOMAIN_DUP_ISSUES : List String := ["98"]

/-- Group key: `(repo, normalized-domain)` when a repo column exists,
else the normalized domain alone (modelled as `repo = none`). -/
abbrev GroupKey := Option String × String

/-- The contribution of one row to `domain_map`: its group key and the
issue label appended to the group (`num if num else "?"`);
`none` when the row is ignored or has no usable domain. -/
def dupContrib (hasRepo : Bool) (row : Row) : Option (GroupKey × String) :=
  let num := pyStrip (pyGet row "issue_number")
  if num ∈ IGNORE_DOMAIN_DUP_ISSUES then none
  else
    let nd := normalize_domain_for_dup (pyGet row "domain")
    if nd = "" then none
    else
      let key : GroupKey :=
        if hasRepo then (some (pyStrip (pyGet row "repo")), nd) else (none, nd)
      some (key, if num = "" then "?" else num)

/-- `domain_map.setdefault(key, []).append(v)`. -/
def addContrib (m : List (GroupKey × List String)) (k : GroupKey) (v : String) :
    List (GroupKey × List String) :=
  match m.lookup k with
  | some l => setA m k (l ++ [v])
  | none => m ++ [(k, [v])]

/-- Python string `<`: lexicographic comparison by code point. -/
def strLtb : List Char → List Char → Bool
  | [], [] => false
  | [], _ :: _ => true
  | _ :: _, [] => false
  | a :: as, b :: bs =>
    if a.toNat < b.toNat then true
    else if b.toNat < a.toNat then false
    else strLtb as bs

def pyStrLt (a b : String) : Prop := strLtb a.data b.data = true

def pyStrLe (a b : String) : Prop := pyStrLt a b ∨ a = b

instance (a b : String) : Decidable (pyStrLt a b) := by
  unfold pyStrLt
  infer_instance

instance (a b : String) : Decidable (pyStrLe a b) := by
  unfold pyStrLe
  infer_instance

/-- `sorted(set(xs))` over the nonempty labels (`i for i in issues if i`).
Python's sort is modelled by insertion sort: the order is total and
antisymmetric and the input has no duplicates, so every comparison sort
returns the same list. -/
def pySortedSet (l : List String) : List String :=
  List.insertionSort pyStrLe ((l.filter (· ≠ "")).dedup)

/-- Group order of the printed report:
`sorted(..., key=lambda x: ((x[0][0] or ""), x[0][1]))` for the repo
variant and `sorted(..., key=lambda x: x[0])` for the plain variant
(lexicographic tuple comparison; distinct group keys never tie, so the
sorting algorithm does not matter). -/
def gkLe (a b : GroupKey) : Prop :=
  pyStrLt (a.1.getD "") (b.1.getD "") ∨ (a.1.getD "" = b.1.getD "" ∧ pyStrLe a.2 b.2)

instance (a b : GroupKey) : Decidable (gkLe a b) := by
  unfold gkLe
  infer_instance

/-- One step of the `domain_map` build loop. -/
def dupStep (hasRepo : Bool) (m : List (GroupKey × List String)) (row : Row) :
    List (GroupKey × List String) :=
  match dupContrib hasRepo row with
  | some (k, v) => addContrib m k v
  | none => m

/-- The `domain_map` of the duplicate-domain check. -/
def buildDupMap (hasRepo : Bool) (rows : List Row) : List (GroupKey × List String) :=
  rows.foldl (dupStep hasRepo) []

/-- The duplicate-domain groups the report prints, with the labels as
printed (`", ".join(sorted(set(...)))`): the gate on a `domain` column,
the map build, the `len > 1` filter, the sort, and the label cleanup. -/
def report_dup_domains (rows : List Row) : List (GroupKey × List String) :=
  match rows with
  | [] => []
  | r0 :: _ =>
    if (r0.lookup "domain").isSome then
      let hasRepo := rows.any (fun r => (r.lookup "repo").isSome)
      let dups := (buildDupMap hasRepo rows).filter (fun kv => 1 < kv.2.length)
      (List.insertionSort (fun a b => gkLe a.1 b.1) dups).map
        (fun kv => (kv.1, pySortedSet kv.2))
    else []

/-! ### Definitions used by the verification -/

/-- A key that begins with the reserved synthetic-key stem `__NO_KEY__`. -/
def hasPseudoStem (k : String) : Prop :=
  "__NO_KEY__".data <+: k.data

instance (k : String) : Decidable (hasPseudoStem k) := by
  unfold hasPseudoStem; infer_instance

/-- The rows of `rows` that contribute to the duplicate-domain group `k`,
in order, as the labels they contribute. -/
def contribsFor (hasRepo : Bool) (rows : List Row) (k : GroupKey) : List String :=
  rows.filterMap (fun r => (dupContrib hasRepo r).bind
    (fun kv => if kv.1 = k then some kv.2 else none))

/-- The label list of group `k` in a duplicate-domain map. -/
def mval (m : List (GroupKey × List String)) (k : GroupKey) : List String :=
  (m.lookup k).getD []

/-- Invariant of the `merge_rows` state when no processed row key carries
the `__NO_KEY__` stem: keys are nonempty; a key is indexed iff listed;
keys without the stem are listed once and their row's key is itself;
synthetic entries hold empty-key rows; a listed key with the stem is the
synthetic key of its own position. -/
def InvM (kf : String) (st : MSt) : Prop :=
  (∀ k ∈ st.keys, k ≠ "")
  ∧ (∀ k : String, (st.idx.lookup k).isSome ↔ k ∈ st.keys)
  ∧ (∀ k ∈ st.keys, ¬ hasPseudoStem k → st.keys.count k = 1)
  ∧ (∀ (k : String) (r : Row), st.idx.lookup k = some r →
      (¬ hasPseudoStem k → rowKey kf r = k) ∧ (hasPseudoStem k → rowKey kf r = ""))
  ∧ (∀ (i : Nat) (h : i < st.keys.length),
      hasPseudoStem (st.keys.get ⟨i, h⟩) → st.keys.get ⟨i, h⟩ = pseudoKey i)

/-! ### Association-list lemmas -/

theorem lookup_cons_eq {α β : Type} [BEq α] [LawfulBEq α] [DecidableEq α]
    (k1 k2 : α) (v2 : β) (t : List (α × β)) :
    List.lookup k1 ((k2, v2) :: t) = if k1 = k2 then some v2 else List.lookup k1 t := by
  by_cases h : k1 = k2
  · simp [List.lookup_cons, beq_iff_eq, h]
  · rw [List.lookup_cons, if_neg h]
    have hb : (k1 == k2) = false := beq_false_of_ne h
    rw [hb]

theorem lookup_setA {α β : Type} [BEq α] [LawfulBEq α] [DecidableEq α]
    (l : List (α × β)) (k k1 : α) (v : β) :
    (setA l k v).lookup k1 = if k1 = k then some v else l.lookup k1 := by
  induction l with
  | nil =>
    simp only [setA, lookup_cons_eq, List.lookup_nil]
  | cons p t ih =>
    obtain ⟨k2, v2⟩ := p
    by_cases h2 : k2 = k
    · subst h2
      have hs : setA ((k2, v2) :: t) k2 v = (k2, v) :: t := by simp [setA]
      rw [hs, lookup_cons_eq k1 k2 v t, lookup_cons_eq k1 k2 v2 t]
      split_ifs <;> rfl
    · have hs : setA ((k2, v2) :: t) k v = (k2, v2) :: setA t k v := by
        simp [setA, h2]
      rw [hs, lookup_cons_eq k1 k2 v2 (setA t k v), ih, lookup_cons_eq k1 k2 v2 t]
      split_ifs with ha hb
      · exact absurd (ha.symm.trans hb) h2
      · rfl
      · rfl
      · rfl

theorem setA_lookup_self {α β : Type} [BEq α] [LawfulBEq α] [DecidableEq α]
    (l : List (α × β)) (k : α) (v : β)
    (h : l.lookup k = some v) : setA l k v = l := by
  induction l with
  | nil => simp [List.lookup] at h
  | cons p t ih =>
    obtain ⟨k2, v2⟩ := p
    rw [lookup_cons_eq] at h
    by_cases h2 : k = k2
    · subst h2
      rw [if_pos rfl] at h
      have hv : v2 = v := Option.some.inj h
      subst hv
      simp [setA]
    · rw [if_neg h2] at h
      simp only [setA, if_neg (Ne.symm h2)]
      rw [ih h]

theorem lookup_eq_none_iff {α β : Type} [BEq α] [LawfulBEq α] [DecidableEq α]
    (l : List (α × β)) (k : α) :
    l.lookup k = none ↔ k ∉ l.map Prod.fst := by
  induction l with
  | nil => simp
  | cons p t ih =>
    obtain ⟨k2, v2⟩ := p
    rw [lookup_cons_eq]
    by_cases h : k = k2
    · subst h; simp
    · simp [h, ih]

theorem mem_iff_lookup {α β : Type} [BEq α] [LawfulBEq α] [DecidableEq α]
    (l : List (α × β)) (hnd : (l.map Prod.fst).Nodup) (k : α) (v : β) :
    (k, v) ∈ l ↔ l.lookup k = some v := by
  induction l with
  | nil => simp
  | cons p t ih =>
    obtain ⟨k2, v2⟩ := p
    simp only [List.map_cons, List.nodup_cons] at hnd
    rw [lookup_cons_eq, List.mem_cons]
    by_cases h : k = k2
    · subst h
      rw [if_pos rfl]
      constructor
      · rintro (he | hm)
        · rw [show v = v2 from congrArg Prod.snd he]
        · exact absurd (List.mem_map_of_mem Prod.fst hm) hnd.1
      · intro hs
        exact Or.inl (by rw [Option.some.inj hs])
    · rw [if_neg h]
      constructor
      · rintro (he | hm)
        · exact absurd (congrArg Prod.fst he) h
        · exact (ih hnd.2).mp hm
      · intro hl
        exact Or.inr ((ih hnd.2).mpr hl)

theorem map_fst_setA {α β : Type} [BEq α] [LawfulBEq α] [DecidableEq α]
    (l : List (α × β)) (k : α) (v : β) (h : (l.lookup k).isSome) :
    (setA l k v).map Prod.fst = l.map Prod.fst := by
  induction l with
  | nil => simp [List.lookup] at h
  | cons p t ih =>
    obtain ⟨k2, v2⟩ := p
    rw [lookup_cons_eq] at h
    by_cases h2 : k2 = k
    · subst h2
      simp [setA]
    · rw [if_neg (Ne.symm h2)] at h
      simp only [setA, if_neg h2, List.map_cons, ih h]

/-! ### String primitive lemmas -/

theorem dropWhile_dropWhile {α : Type} (p : α → Bool) (l : List α) :
    (l.dropWhile p).dropWhile p = l.dropWhile p := by
  induction l with
  | nil => rfl
  | cons a t ih =>
    by_cases h : p a
    · simp [List.dropWhile_cons, h, ih]
    · simp [List.dropWhile_cons, h]

theorem not_p_head_dropWhile {α : Type} (p : α → Bool) :
    ∀ (l : List α) (b : α) (t : List α), l.dropWhile p = b :: t → p b = false := by
  intro l
  induction l with
  | nil => intro b t h; simp at h
  | cons a l ih =>
    intro b t h
    by_cases ha : p a
    · rw [List.dropWhile_cons, if_pos ha] at h
      exact ih b t h
    · rw [List.dropWhile_cons, if_neg ha] at h
      obtain rfl : a = b := (List.cons.injEq .. ▸ h).1
      exact Bool.not_eq_true _ ▸ ha

theorem dropWhile_of_nofix {α : Type} (p : α → Bool) (A : List α)
    (hA : A.dropWhile p = A) :
    (A.reverse.dropWhile p).reverse.dropWhile p = (A.reverse.dropWhile p).reverse := by
  rcases hB : (A.reverse.dropWhile p).reverse with _ | ⟨b, t⟩
  · rfl
  · have hpre : (A.reverse.dropWhile p).reverse <+: A := by
      have hsuf : A.reverse.dropWhile p <:+ A.reverse := List.dropWhile_suffix p
      have h2 : (A.reverse.dropWhile p).reverse <+: A.reverse.reverse :=
        List.reverse_prefix.mpr hsuf
      simpa using h2
    rw [hB] at hpre
    obtain ⟨s, hs⟩ := hpre
    have hAcons : A = b :: (t ++ s) := by rw [← hs]; simp
    have hpb : p b = false := by
      apply not_p_head_dropWhile p A b (t ++ s)
      rw [hA, hAcons]
    rw [List.dropWhile_cons, if_neg (by simp [hpb])]

theorem pyStripL_idem (l : List Char) : pyStripL (pyStripL l) = pyStripL l := by
  unfold pyStripL
  set A := l.dropWhile isPySpace with hA
  have hAfix : A.dropWhile isPySpace = A := dropWhile_dropWhile isPySpace l
  set B := (A.reverse.dropWhile isPySpace).reverse with hBdef
  have hBfix : B.dropWhile isPySpace = B := dropWhile_of_nofix isPySpace A hAfix
  rw [hBfix]
  have hBrev : B.reverse = A.reverse.dropWhile isPySpace := by simp [hBdef]
  rw [hBrev, dropWhile_dropWhile, ← hBrev, List.reverse_reverse]

theorem pyStrip_idem (s : String) : pyStrip (pyStrip s) = pyStrip s := by
  unfold pyStrip
  exact congrArg String.mk (pyStripL_idem s.data)

theorem toLower_eq_of_not (c : Char) (h : ¬(c.toNat ≥ 65 ∧ c.toNat ≤ 90)) :
    Char.toLower c = c := by
  simp only [Char.toLower]
  rw [if_neg h]

theorem toNat_toLower_upper (c : Char) (h : c.toNat ≥ 65 ∧ c.toNat ≤ 90) :
    (Char.toLower c).toNat = c.toNat + 32 := by
  simp only [Char.toLower]
  rw [if_pos h]
  have hv : (c.toNat + 32).isValidChar := Or.inl (by omega)
  show (Char.ofNat (c.toNat + 32)).toNat = c.toNat + 32
  simp only [Char.ofNat]
  rw [dif_pos hv]
  simp [Char.ofNatAux, Char.toNat, UInt32.toNat, BitVec.toNat_ofNatLt]

theorem toLower_idem (c : Char) : Char.toLower (Char.toLower c) = Char.toLower c := by
  by_cases h : c.toNat ≥ 65 ∧ c.toNat ≤ 90
  · have h1 := toNat_toLower_upper c h
    apply toLower_eq_of_not
    rw [h1]
    omega
  · rw [toLower_eq_of_not c h, toLower_eq_of_not c h]

theorem pyLowerL_idem (l : List Char) : pyLowerL (pyLowerL l) = pyLowerL l := by
  unfold pyLowerL
  rw [List.map_map]
  exact List.map_congr_left (fun c _ => toLower_idem c)

/-! ### `fillRow` lemmas -/

theorem pyGet_setA (d : Row) (f0 fn : String) (v : String) (h : f0 ≠ fn) :
    pyGet (setA d f0 v) fn = pyGet d fn := by
  unfold pyGet
  rw [lookup_setA, if_neg (Ne.symm h)]

theorem fillRow_cons (f0 : String) (rest : List String) (srow drow : Row) :
    fillRow (f0 :: rest) srow drow =
      fillRow rest srow
        (if pyStrip (pyGet srow f0) ≠ "" ∧ pyStrip (pyGet drow f0) = ""
         then setA drow f0 (pyStrip (pyGet srow f0)) else drow) := by
  rfl

theorem fill_keeps (fns : List String) (srow : Row) :
    ∀ (drow : Row) (fn : String), pyStrip (pyGet drow fn) ≠ "" →
      pyGet (fillRow fns srow drow) fn = pyGet drow fn := by
  induction fns with
  | nil => intro drow fn _; rfl
  | cons f0 rest ih =>
    intro drow fn hne
    rw [fillRow_cons]
    by_cases hg : pyStrip (pyGet srow f0) ≠ "" ∧ pyStrip (pyGet drow f0) = ""
    · rw [if_pos hg]
      have hf0 : f0 ≠ fn := by
        intro h
        rw [h] at hg
        exact hne hg.2
      rw [ih (setA drow f0 (pyStrip (pyGet srow f0))) fn
        (by rw [pyGet_setA drow f0 fn _ hf0]; exact hne)]
      exact pyGet_setA drow f0 fn _ hf0
    · rw [if_neg hg]
      exact ih drow fn hne

theorem fill_nonempty (srow : Row) :
    ∀ (fns : List String) (drow : Row) (fn : String), fn ∈ fns →
      pyStrip (pyGet srow fn) ≠ "" →
      pyStrip (pyGet (fillRow fns srow drow) fn) ≠ "" := by
  intro fns
  induction fns with
  | nil => intro drow fn h; simp at h
  | cons f0 rest ih =>
    intro drow fn hmem hs
    rw [fillRow_cons]
    by_cases hf : fn = f0
    · subst hf
      by_cases hd : pyStrip (pyGet drow fn) = ""
      · rw [if_pos ⟨hs, hd⟩]
        have hv : pyGet (setA drow fn (pyStrip (pyGet srow fn))) fn
            = pyStrip (pyGet srow fn) := by
          unfold pyGet
          rw [lookup_setA, if_pos rfl, Option.getD_some]
        have hnz : pyStrip (pyGet (setA drow fn (pyStrip (pyGet srow fn))) fn) ≠ "" := by
          rw [hv, pyStrip_idem]
          exact hs
        rw [fill_keeps rest srow _ fn hnz]
        rw [hv, pyStrip_idem]
        exact hs
      · have hnz : pyStrip (pyGet drow fn) ≠ "" := hd
        split_ifs with hg
        · exact absurd hg.2 hd
        · rw [fill_keeps rest srow drow fn hnz]
          exact hnz
    · have hrest : fn ∈ rest := by
        rcases List.mem_cons.mp hmem with h | h
        · exact absurd h hf
        · exact h
      split_ifs with hg
      · exact ih (setA drow f0 (pyStrip (pyGet srow f0))) fn hrest hs
      · exact ih drow fn hrest hs

theorem fill_diff (srow : Row) :
    ∀ (fns : List String) (drow : Row) (fn : String),
      pyGet (fillRow fns srow drow) fn ≠ pyGet drow fn →
      pyStrip (pyGet drow fn) = "" ∧
      pyGet (fillRow fns srow drow) fn = pyStrip (pyGet srow fn) ∧
      pyStrip (pyGet srow fn) ≠ "" := by
  intro fns
  induction fns with
  | nil => intro drow fn h; exact absurd rfl h
  | cons f0 rest ih =>
    intro drow fn hne
    rw [fillRow_cons] at hne ⊢
    by_cases hg : pyStrip (pyGet srow f0) ≠ "" ∧ pyStrip (pyGet drow f0) = ""
    · rw [if_pos hg] at hne ⊢
      by_cases hf : f0 = fn
      · subst hf
        have hv : pyGet (setA drow f0 (pyStrip (pyGet srow f0))) f0
            = pyStrip (pyGet srow f0) := by
          unfold pyGet
          rw [lookup_setA, if_pos rfl, Option.getD_some]
        have hnz : pyStrip (pyGet (setA drow f0 (pyStrip (pyGet srow f0))) f0) ≠ "" := by
          rw [hv, pyStrip_idem]
          exact hg.1
        refine ⟨hg.2, ?_, hg.1⟩
        rw [fill_keeps rest srow _ f0 hnz, hv]
      · have hget : pyGet (setA drow f0 (pyStrip (pyGet srow f0))) fn = pyGet drow fn :=
          pyGet_setA drow f0 fn _ hf
        rw [← hget]
        exact ih (setA drow f0 (pyStrip (pyGet srow f0))) fn (by rw [hget]; exact hne)
    · rw [if_neg hg] at hne ⊢
      exact ih drow fn hne

theorem fill_noop (srow : Row) :
    ∀ (fns : List String) (drow : Row),
      (∀ fn ∈ fns, pyStrip (pyGet srow fn) = "" ∨ pyStrip (pyGet drow fn) ≠ "") →
      fillRow fns srow drow = drow := by
  intro fns
  induction fns with
  | nil => intro drow _; rfl
  | cons f0 rest ih =>
    intro drow h
    rw [fillRow_cons]
    have hg : ¬ (pyStrip (pyGet srow f0) ≠ "" ∧ pyStrip (pyGet drow f0) = "") := by
      rcases h f0 (List.mem_cons_self f0 rest) with h0 | h0
      · exact fun hc => hc.1 h0
      · exact fun hc => h0 hc.2
    rw [if_neg hg]
    exact ih drow (fun fn hfn => h fn (List.mem_cons_of_mem f0 hfn))

/-! ### `normalizeRow` lemmas -/

theorem lookup_normalizeRow (r : Row) :
    ∀ (fns : List String) (fn : String), fn ∈ fns →
      (normalizeRow fns r).lookup fn = some ((r.lookup fn).getD "") := by
  intro fns
  induction fns with
  | nil => intro fn h; simp at h
  | cons f0 rest ih =>
    intro fn hmem
    unfold normalizeRow
    rw [List.map_cons, lookup_cons_eq]
    by_cases hf : fn = f0
    · subst hf
      rw [if_pos rfl]
    · rw [if_neg hf]
      have : fn ∈ rest := by
        rcases List.mem_cons.mp hmem with h | h
        · exact absurd h hf
        · exact h
      exact ih fn this

theorem pyGet_normalizeRow (r : Row) (fns : List String) (fn : String) (h : fn ∈ fns) :
    pyGet (normalizeRow fns r) fn = pyGet r fn := by
  unfold pyGet
  rw [lookup_normalizeRow r fns fn h, Option.getD_some]

theorem rowKey_normalizeRow (r : Row) (fns : List String) (kf : String) (h : kf ∈ fns) :
    rowKey kf (normalizeRow fns r) = rowKey kf r := by
  unfold rowKey
  rw [pyGet_normalizeRow r fns kf h]

theorem normalizeRow_idem (fns : List String) (r : Row) :
    normalizeRow fns (normalizeRow fns r) = normalizeRow fns r := by
  show fns.map (fun fn => (fn, ((normalizeRow fns r).lookup fn).getD ""))
      = fns.map (fun fn => (fn, (r.lookup fn).getD ""))
  apply List.map_congr_left
  intro fn hfn
  rw [lookup_normalizeRow r fns fn hfn, Option.getD_some]

/-! ### Extraction guard lemmas -/

theorem normalize_host_cases (s : String) :
    normalize_host s = "" ∨ '.' ∈ (normalize_host s).data := by
  simp only [normalize_host]
  split_ifs
  all_goals first
    | exact Or.inl rfl
    | (right; exact List.elem_iff.mp (by assumption))

theorem checkHost_eq (s : String) :
    checkHost s =
      if normalize_host s ≠ "" ∧ normalize_host s ∉ SKIP_HOSTS
      then some (normalize_host s) else none := rfl

theorem checkHost_some (s h : String) (he : checkHost s = some h) :
    h ≠ "" ∧ h ∉ SKIP_HOSTS := by
  rw [checkHost_eq] at he
  split_ifs at he with hc
  · obtain rfl : normalize_host s = h := Option.some.inj he
    exact hc

theorem lineHit_eq (line : List Char) :
    lineHit line =
      if hasSub "domain".data (pyLowerL line) then
        match (findUrl line).bind (fun m => checkHost ⟨m.1⟩) with
        | some h => some h
        | none => (findBare line).bind (fun m => checkHost ⟨m.1⟩)
      else none := rfl

theorem lineHit_some (line : List Char) (h : String) (he : lineHit line = some h) :
    h ≠ "" ∧ h ∉ SKIP_HOSTS := by
  rw [lineHit_eq] at he
  split_ifs at he with hd
  · rcases hm : (findUrl line).bind (fun m => checkHost ⟨m.1⟩) with _ | h1
    · rw [hm] at he
      obtain ⟨a, _, hck⟩ := Option.bind_eq_some.mp he
      exact checkHost_some _ _ hck
    · rw [hm] at he
      obtain rfl : h1 = h := Option.some.inj he
      obtain ⟨a, _, hck⟩ := Option.bind_eq_some.mp hm
      exact checkHost_some _ _ hck

theorem extract_from_body_eq (body : String) :
    extract_from_body body =
      if body = "" then ""
      else if pyStripL body.data = [] then ""
      else
        match (splitLines (pyStripL body.data)).findSome? lineHit with
        | some h => h
        | none =>
          match (findAllUrl (pyStripL body.data)).findSome? (fun cap => checkHost ⟨cap⟩) with
          | some h => h
          | none =>
            match (findAllBare (pyStripL body.data)).findSome? (fun cap => checkHost ⟨cap⟩) with
            | some h => h
            | none => "" := rfl

theorem extract_from_body_guard (body : String) :
    extract_from_body body = "" ∨
    (extract_from_body body ≠ "" ∧ extract_from_body body ∉ SKIP_HOSTS) := by
  rw [extract_from_body_eq]
  split_ifs with h1 h2
  · exact Or.inl rfl
  · exact Or.inl rfl
  · rcases hm1 : (splitLines (pyStripL body.data)).findSome? lineHit with _ | d1
    · rcases hm2 : (findAllUrl (pyStripL body.data)).findSome?
          (fun cap => checkHost ⟨cap⟩) with _ | d2
      · rcases hm3 : (findAllBare (pyStripL body.data)).findSome?
            (fun cap => checkHost ⟨cap⟩) with _ | d3
        · exact Or.inl rfl
        · right
          obtain ⟨a, _, hck⟩ := List.exists_of_findSome?_eq_some hm3
          exact checkHost_some _ _ hck
      · right
        obtain ⟨a, _, hck⟩ := List.exists_of_findSome?_eq_some hm2
        exact checkHost_some _ _ hck
    · right
      obtain ⟨a, _, hl⟩ := List.exists_of_findSome?_eq_some hm1
      exact lineHit_some _ _ hl

theorem extract_from_title_eq (title : String) :
    extract_from_title title =
      if title = "" then ""
      else
        match titleCandidate title with
        | none => ""
        | some cand =>
          if stripCharsL titlePunct cand = [] then ""
          else normalize_host ⟨hostFromCandidate (stripCharsL titlePunct cand)⟩ := rfl

theorem extract_from_title_dot (title : String) :
    extract_from_title title = "" ∨ '.' ∈ (extract_from_title title).data := by
  rw [extract_from_title_eq]
  split_ifs with h1
  · exact Or.inl rfl
  · rcases hc : titleCandidate title with _ | cand
    · exact Or.inl rfl
    · simp only []
      split_ifs with h2
      · exact Or.inl rfl
      · exact normalize_host_cases _

/-! ### Claim theorems -/

/-- C3 (counterexample): the claim predicts that a title whose selected
token parses to a dot-less host yields that host with source `title`;
on the code the canonical such title `"localhost"` yields `("", "none")`
because the title path runs the host through `normalize_host`, whose
dot check rejects it. -/
theorem c3_counterexample :
    extract_domain "localhost" "" = ("", "none") ∧ normalize_host "localhost" = "" := by
  constructor
  · rfl
  · rfl

/-- C3 (amended): the title-fallback path does validate the dot — every
non-empty result of `extract_from_title` contains a dot, exactly like
the body-scanning paths — but it does not apply the skip-set filter:
the tracker host `github.com` in a title is returned with source `title`. -/
theorem c3_amended_title_dot_no_skip :
    (∀ title : String,
      extract_from_title title = "" ∨ '.' ∈ (extract_from_title title).data)
    ∧ extract_domain "github.com" "" = ("github.com", "title") := by
  constructor
  · exact extract_from_title_dot
  · rfl

/-- C6: a body consisting only of `https://github.com/org/repo` yields
domain `""` with source `none`, and no body-scanning tier ever returns
a host in `SKIP_HOSTS`. -/
theorem c6_skip_set_enforced :
    extract_domain "" "https://github.com/org/repo" = ("", "none")
    ∧ ∀ body : String,
        extract_from_body body = "" ∨ extract_from_body body ∉ SKIP_HOSTS := by
  constructor
  · rfl
  · intro body
    rcases extract_from_body_guard body with h | h
    · exact Or.inl h
    · exact Or.inr h.2

/-- C9: `extract_domain` is a pure function of title and body: two calls
with equal inputs give equal outputs. -/
theorem c9_extract_deterministic :
    ∀ (t b t2 b2 : String), t = t2 → b = b2 →
      extract_domain t b = extract_domain t2 b2 := by
  intro t b t2 b2 ht hb
  rw [ht, hb]

/-- C9 witness at concrete inputs. -/
theorem c9_extract_deterministic_witness :
    extract_domain "example.com" "" = extract_domain "example.com" "" :=
  c9_extract_deterministic "example.com" "" "example.com" "" rfl rfl

theorem map_toLower_www : List.map Char.toLower "www.".data = "www.".data := by
  decide

theorem clickable_cases (raw : String) :
    clickable_domain raw = "" ∨
    ∃ d : List Char, (clickable_domain raw).data = "www.".data ++ d ∧
      pyLowerL (clickable_domain raw).data = (clickable_domain raw).data := by
  simp only [clickable_domain]
  split_ifs with h1 h2 h3
  · exact Or.inl rfl
  · exact Or.inl rfl
  · right
    refine ⟨(pyLowerL (pyStripL raw.data)).drop 4, rfl, ?_⟩
    show pyLowerL ("www.".data ++ (pyLowerL (pyStripL raw.data)).drop 4)
        = "www.".data ++ (pyLowerL (pyStripL raw.data)).drop 4
    unfold pyLowerL
    rw [List.map_append, map_toLower_www]
    congr 1
    rw [List.map_drop]
    congr 1
    exact pyLowerL_idem (pyStripL raw.data)
  · right
    refine ⟨pyLowerL (pyStripL raw.data), rfl, ?_⟩
    show pyLowerL ("www.".data ++ pyLowerL (pyStripL raw.data))
        = "www.".data ++ pyLowerL (pyStripL raw.data)
    unfold pyLowerL
    rw [List.map_append, map_toLower_www]
    congr 1
    exact pyLowerL_idem (pyStripL raw.data)

/-- C10: the `domain` column written by the export pipeline is
`clickable_domain` of the raw extracted domain: it is either empty or a
lowercase string beginning with `www.`; and a nonempty raw domain that
does not itself begin with `www.` never appears verbatim. -/
theorem c10_clickable_invariant :
    (∀ title body : String,
      exportDomainField title body = "" ∨
      ∃ d : List Char, (exportDomainField title body).data = "www.".data ++ d ∧
        pyLowerL (exportDomainField title body).data = (exportDomainField title body).data)
    ∧ ∀ raw : String, raw ≠ "" → ¬ ("www.".data <+: raw.data) →
        clickable_domain raw ≠ raw := by
  constructor
  · intro title body
    exact clickable_cases (extract_domain title body).1
  · intro raw hne hnp heq
    rcases clickable_cases raw with h | ⟨d, hd, _⟩
    · rw [heq] at h
      exact hne h
    · rw [heq] at hd
      exact hnp ⟨d, hd.symm⟩

/-- C10 witness at concrete inputs. -/
theorem c10_clickable_invariant_witness :
    clickable_domain "foo.com" ≠ "foo.com" :=
  c10_clickable_invariant.2 "foo.com" (by decide) (by decide)

/-- C4 (counterexample): with a missing source table the merge prints a
message and does not write, but the script plainly `return`s from
`main`, so the process exits with status 0, not the non-zero status the
claim asserts. -/
theorem c4_counterexample :
    merge_main none (some (["issue_number"], [[("issue_number", "1")]]))
      = ⟨0, true, none⟩
    ∧ ¬ (merge_main none (some (["issue_number"], [[("issue_number", "1")]]))).exitCode ≠ 0 := by
  constructor
  · rfl
  · intro h
    exact h rfl

/-- C4 (amended): whenever the source table is missing/empty or lacks
the key field `issue_number`, the merge terminates with a message and
exit status 0 (normal return), and nothing is written to the persistent
table. -/
theorem c4_abort_no_write :
    ∀ (src db : Option (List String × List Row)),
      (readTable src).2 = [] ∨ "issue_number" ∉ (readTable src).1 →
      merge_main src db = ⟨0, true, none⟩ := by
  intro src db h
  rcases hs : readTable src with ⟨sf, sr⟩
  rw [hs] at h
  unfold merge_main
  rw [hs]
  dsimp only
  by_cases h1 : sr = []
  · rw [if_pos h1]
  · rw [if_neg h1]
    rcases h with h | h
    · exact absurd h h1
    · rw [if_pos h]

/-- C4 witness: a missing source file aborts without writing. -/
theorem c4_abort_no_write_witness :
    merge_main none (some (["issue_number"], [[("issue_number", "1")]]))
      = ⟨0, true, none⟩ :=
  c4_abort_no_write none (some (["issue_number"], [[("issue_number", "1")]])) (Or.inl rfl)

/-! ### `build_fieldnames` lemmas -/

theorem mem_foldl_insertFn (l : List String) :
    ∀ (acc : List String) (x : String),
      x ∈ l.foldl insertFn acc ↔ x ∈ acc ∨ x ∈ l := by
  induction l with
  | nil => intro acc x; simp
  | cons a t ih =>
    intro acc x
    rw [List.foldl_cons, ih]
    unfold insertFn
    split_ifs with ha
    · constructor
      · rintro (h | h)
        · exact Or.inl h
        · exact Or.inr (List.mem_cons_of_mem a h)
      · rintro (h | h)
        · exact Or.inl h
        · rcases List.mem_cons.mp h with rfl | h
          · exact Or.inl ha
          · exact Or.inr h
    · simp only [List.mem_append, List.mem_singleton, List.mem_cons]
      tauto

theorem foldl_insertFn_of_subset (l : List String) :
    ∀ (acc : List String), (∀ x ∈ l, x ∈ acc) → l.foldl insertFn acc = acc := by
  induction l with
  | nil => intro acc _; rfl
  | cons a t ih =>
    intro acc h
    rw [List.foldl_cons]
    unfold insertFn
    rw [if_pos (h a (List.mem_cons_self a t))]
    exact ih acc (fun x hx => h x (List.mem_cons_of_mem a hx))

theorem foldl_insertFn_nodup (l : List String) :
    ∀ (acc : List String), acc.Nodup → (l.foldl insertFn acc).Nodup := by
  induction l with
  | nil => intro acc h; exact h
  | cons a t ih =>
    intro acc h
    rw [List.foldl_cons]
    unfold insertFn
    split_ifs with ha
    · exact ih acc h
    · exact ih (acc ++ [a]) (by simp [List.nodup_append, h, ha])

theorem foldl_insertFn_of_nodup (l : List String) :
    ∀ (acc : List String), l.Nodup →
      l.foldl insertFn acc = acc ++ l.filter (fun x => x ∉ acc) := by
  induction l with
  | nil => intro acc _; simp
  | cons a t ih =>
    intro acc hnd
    rw [List.foldl_cons]
    have hnd2 := (List.nodup_cons.mp hnd).2
    have hna := (List.nodup_cons.mp hnd).1
    by_cases ha : a ∈ acc
    · rw [show insertFn acc a = acc from by unfold insertFn; rw [if_pos ha]]
      rw [ih acc hnd2, List.filter_cons]
      rw [if_neg (by simpa using ha)]
    · rw [show insertFn acc a = acc ++ [a] from by unfold insertFn; rw [if_neg ha]]
      rw [ih (acc ++ [a]) hnd2, List.filter_cons, if_pos (by simpa using ha)]
      rw [List.append_assoc, List.singleton_append]
      congr 2
      apply List.filter_congr
      intro x hx
      have hxa : x ≠ a := fun h => hna (h ▸ hx)
      simp [List.mem_append, hxa]

theorem build_fieldnames_mem (dbF srcF : List String) (x : String) :
    x ∈ build_fieldnames dbF srcF ↔ x ∈ dbF ∨ x ∈ srcF := by
  unfold build_fieldnames
  rw [mem_foldl_insertFn, mem_foldl_insertFn]
  simp

theorem build_fieldnames_nodup (dbF srcF : List String) :
    (build_fieldnames dbF srcF).Nodup := by
  unfold build_fieldnames
  exact foldl_insertFn_nodup srcF _ (foldl_insertFn_nodup dbF [] List.nodup_nil)

/-- C7: the output field list is the persistent fields in original order
followed by the new export fields in export order (for well-formed
headers); it is a superset of both field sets; and every written row has
a value, defaulting to the empty string, for every field of the list. -/
theorem c7_field_union :
    (∀ dbF srcF : List String, dbF.Nodup → srcF.Nodup →
      build_fieldnames dbF srcF = dbF ++ srcF.filter (fun f => f ∉ dbF))
    ∧ (∀ dbF srcF : List String, (∀ f ∈ dbF, f ∈ build_fieldnames dbF srcF)
        ∧ ∀ f ∈ srcF, f ∈ build_fieldnames dbF srcF)
    ∧ (∀ (fns : List String) (r : Row) (fn : String), fn ∈ fns →
        (normalizeRow fns r).lookup fn = some ((r.lookup fn).getD "")) := by
  refine ⟨?_, ?_, ?_⟩
  · intro dbF srcF hdb hsrc
    unfold build_fieldnames
    have h1 : dbF.foldl insertFn [] = dbF := by
      rw [foldl_insertFn_of_nodup dbF [] hdb]
      simp
    rw [h1, foldl_insertFn_of_nodup srcF dbF hsrc]
  · intro dbF srcF
    constructor
    · intro f hf
      exact (build_fieldnames_mem dbF srcF f).mpr (Or.inl hf)
    · intro f hf
      exact (build_fieldnames_mem dbF srcF f).mpr (Or.inr hf)
  · intro fns r fn h
    exact lookup_normalizeRow r fns fn h

/-- C7 witness at concrete inputs. -/
theorem c7_field_union_witness :
    build_fieldnames ["issue_number", "domain"] ["issue_number", "author"]
      = ["issue_number", "domain"] ++
        (["issue_number", "author"].filter (fun f => f ∉ ["issue_number", "domain"])) :=
  c7_field_union.1 ["issue_number", "domain"] ["issue_number", "author"]
    (by decide) (by decide)

/-! ### `merge_rows` state lemmas -/

theorem phase1Step_eq (kf : String) (st : MSt) (row : Row) :
    phase1Step kf st row =
      if rowKey kf row = "" then
        ⟨setA st.idx (pseudoKey st.keys.length) row, st.keys ++ [pseudoKey st.keys.length]⟩
      else if (st.idx.lookup (rowKey kf row)).isSome then st
      else ⟨setA st.idx (rowKey kf row) row, st.keys ++ [rowKey kf row]⟩ := rfl

theorem phase2Step_eq (kf : String) (srcFns : List String) (st : MSt) (srow : Row) :
    phase2Step kf srcFns st srow =
      if rowKey kf srow = "" then st
      else
        match st.idx.lookup (rowKey kf srow) with
        | none => ⟨setA st.idx (rowKey kf srow) srow, st.keys ++ [rowKey kf srow]⟩
        | some drow => ⟨setA st.idx (rowKey kf srow) (fillRow srcFns srow drow), st.keys⟩ := rfl

theorem merge_rows_eq (db_rows src_rows : List Row) (kf : String) (srcFns : List String) :
    merge_rows db_rows src_rows kf srcFns =
      (src_rows.foldl (phase2Step kf srcFns) (db_rows.foldl (phase1Step kf) ⟨[], []⟩)).keys.map
        (fun k => ((src_rows.foldl (phase2Step kf srcFns)
            (db_rows.foldl (phase1Step kf) ⟨[], []⟩)).idx.lookup k).getD []) := rfl

theorem pseudoKey_stem (n : Nat) : hasPseudoStem (pseudoKey n) := by
  unfold hasPseudoStem pseudoKey
  rw [String.data_append]
  exact ⟨_, rfl⟩

theorem pseudoKey_ne_empty (n : Nat) : pseudoKey n ≠ "" := by
  unfold pseudoKey
  intro h
  have h1 : ("__NO_KEY__" ++ toString n).data = "".data := congrArg String.data h
  rw [String.data_append] at h1
  have h2 := List.append_eq_nil.mp h1
  exact absurd h2.1 (by decide)

theorem foldl_preserve {σ α : Type} (P : σ → Prop) (step : σ → α → σ) :
    ∀ (l : List α), (∀ s a, a ∈ l → P s → P (step s a)) →
      ∀ s : σ, P s → P (l.foldl step s) := by
  intro l
  induction l with
  | nil => intro _ s h; exact h
  | cons a t ih =>
    intro h s hs
    rw [List.foldl_cons]
    exact ih (fun s2 a2 ha2 => h s2 a2 (List.mem_cons_of_mem a ha2))
      (step s a) (h s a (List.mem_cons_self a t) hs)

/-- What a fixed persistent row contributes to the final state: the row
stored under its key keeps all of its nonempty fields verbatim. -/
def KeepsP (kf : String) (r0 : Row) (k : String) (st : MSt) : Prop :=
  ∃ r1 : Row, st.idx.lookup k = some r1 ∧ k ∈ st.keys ∧ rowKey kf r1 = k ∧
    ∀ fn : String, pyStrip (pyGet r0 fn) ≠ "" → pyGet r1 fn = pyGet r0 fn

theorem phase1Step_keeps (kf : String) (r0 : Row) (k : String)
    (hnk : ¬ hasPseudoStem k) (st : MSt) (row : Row) (h : KeepsP kf r0 k st) :
    KeepsP kf r0 k (phase1Step kf st row) := by
  obtain ⟨r1, hl, hmem, hrk, hprop⟩ := h
  rw [phase1Step_eq]
  by_cases hkey : rowKey kf row = ""
  · rw [if_pos hkey]
    refine ⟨r1, ?_, List.mem_append_left _ hmem, hrk, hprop⟩
    rw [lookup_setA,
      if_neg (fun he => hnk (by rw [he]; exact pseudoKey_stem st.keys.length))]
    exact hl
  · rw [if_neg hkey]
    by_cases hs : (st.idx.lookup (rowKey kf row)).isSome
    · rw [if_pos hs]
      exact ⟨r1, hl, hmem, hrk, hprop⟩
    · rw [if_neg hs]
      by_cases heq : k = rowKey kf row
      · rw [← heq, hl] at hs
        simp at hs
      · refine ⟨r1, ?_, List.mem_append_left _ hmem, hrk, hprop⟩
        rw [lookup_setA, if_neg heq]
        exact hl

theorem phase2Step_keeps (kf : String) (srcFns : List String) (r0 : Row) (k : String)
    (st : MSt) (srow : Row) (h : KeepsP kf r0 k st) :
    KeepsP kf r0 k (phase2Step kf srcFns st srow) := by
  obtain ⟨r1, hl, hmem, hrk, hprop⟩ := h
  rw [phase2Step_eq]
  by_cases hkey : rowKey kf srow = ""
  · rw [if_pos hkey]
    exact ⟨r1, hl, hmem, hrk, hprop⟩
  · rw [if_neg hkey]
    rcases hl2 : st.idx.lookup (rowKey kf srow) with _ | drow
    · by_cases heq : k = rowKey kf srow
      · rw [← heq, hl] at hl2
        cases hl2
      · refine ⟨r1, ?_, List.mem_append_left _ hmem, hrk, hprop⟩
        rw [lookup_setA, if_neg heq]
        exact hl
    · by_cases heq : k = rowKey kf srow
      · have hdr : r1 = drow := by
          rw [← heq] at hl2
          exact Option.some.inj (hl.symm.trans hl2)
        subst hdr
        have hkne : pyStrip (pyGet r1 kf) ≠ "" := by
          unfold rowKey at hrk
          rw [hrk, heq]
          exact hkey
        refine ⟨fillRow srcFns srow r1, ?_, hmem, ?_, ?_⟩
        · rw [lookup_setA, if_pos heq]
        · unfold rowKey
          rw [fill_keeps srcFns srow r1 kf hkne]
          exact hrk
        · intro fn hfn
          have h1 : pyGet r1 fn = pyGet r0 fn := hprop fn hfn
          have h2 : pyStrip (pyGet r1 fn) ≠ "" := by
            rw [h1]
            exact hfn
          rw [fill_keeps srcFns srow r1 fn h2]
          exact h1
      · refine ⟨r1, ?_, hmem, hrk, hprop⟩
        rw [lookup_setA, if_neg heq]
        exact hl

theorem phase1_lookup_none (kf k : String) (hnk : ¬ hasPseudoStem k) :
    ∀ (rows : List Row) (st : MSt), (∀ r ∈ rows, rowKey kf r ≠ k) →
      st.idx.lookup k = none →
      (rows.foldl (phase1Step kf) st).idx.lookup k = none := by
  intro rows st hrows h0
  refine foldl_preserve (fun s => s.idx.lookup k = none) (phase1Step kf) rows ?_ st h0
  intro s row hrow hs
  rw [phase1Step_eq]
  by_cases hkey : rowKey kf row = ""
  · rw [if_pos hkey]
    show (setA s.idx (pseudoKey s.keys.length) row).lookup k = none
    rw [lookup_setA,
      if_neg (fun he => hnk (by rw [he]; exact pseudoKey_stem s.keys.length))]
    exact hs
  · rw [if_neg hkey]
    by_cases hsome : (s.idx.lookup (rowKey kf row)).isSome
    · rw [if_pos hsome]
      exact hs
    · rw [if_neg hsome]
      show (setA s.idx (rowKey kf row) row).lookup k = none
      rw [lookup_setA, if_neg (fun he => hrows row hrow he.symm)]
      exact hs

/-- C1 (counterexample): a persistent row whose key is the literal
pseudo-key string `__NO_KEY__1` followed by a keyless row: the keyless
row is indexed under the same synthetic key and displaces the first row,
so the first row's nonempty `domain` value `old` does not survive the
merge with an export row sharing that key — it is replaced by `new`. -/
theorem c1_counterexample :
    merge_rows
        [[("issue_number", "__NO_KEY__1"), ("domain", "old")], [("issue_number", "")]]
        [[("issue_number", "__NO_KEY__1"), ("domain", "new")]]
        "issue_number" ["issue_number", "domain"]
      = [[("issue_number", "__NO_KEY__1"), ("domain", "new")],
         [("issue_number", "__NO_KEY__1"), ("domain", "new")]]
    ∧ rowKey "issue_number"
        [("issue_number", "__NO_KEY__1"), ("domain", "old")] = "__NO_KEY__1"
    ∧ pyStrip (pyGet [("issue_number", "__NO_KEY__1"), ("domain", "old")] "domain") ≠ ""
    ∧ ∀ r ∈ merge_rows
        [[("issue_number", "__NO_KEY__1"), ("domain", "old")], [("issue_number", "")]]
        [[("issue_number", "__NO_KEY__1"), ("domain", "new")]]
        "issue_number" ["issue_number", "domain"],
        pyGet r "domain" ≠ "old" := by
  refine ⟨by rfl, by rfl, by decide, ?_⟩
  intro r hr
  rw [show merge_rows
        [[("issue_number", "__NO_KEY__1"), ("domain", "old")], [("issue_number", "")]]
        [[("issue_number", "__NO_KEY__1"), ("domain", "new")]]
        "issue_number" ["issue_number", "domain"]
      = [[("issue_number", "__NO_KEY__1"), ("domain", "new")],
         [("issue_number", "__NO_KEY__1"), ("domain", "new")]] from rfl] at hr
  rcases List.mem_cons.mp hr with rfl | hr
  · decide
  · rcases List.mem_cons.mp hr with rfl | hr
    · decide
    · simp at hr

/-- C1 (amended): the per-field merge rule.  (a) For the first persistent
row carrying a given nonempty key that is not a reserved `__NO_KEY__`
pseudo-key, the merged output contains a row under that key in which
every field that was nonempty (after stripping) before the merge retains
its exact prior value.  (b) At the level of one matched pair, a field's
stored value changes only if the persistent value was empty/whitespace
and the export value nonempty, and then it becomes the stripped export
value.  (c) The claim's own example evaluates as stated. -/
theorem c1_no_overwrite :
    (∀ (kf : String) (pre post srcR : List Row) (r0 : Row) (srcFns : List String),
      rowKey kf r0 ≠ "" → ¬ hasPseudoStem (rowKey kf r0) →
      (∀ r ∈ pre, rowKey kf r ≠ rowKey kf r0) →
      ∃ r1 ∈ merge_rows (pre ++ r0 :: post) srcR kf srcFns,
        rowKey kf r1 = rowKey kf r0 ∧
        ∀ fn : String, pyStrip (pyGet r0 fn) ≠ "" → pyGet r1 fn = pyGet r0 fn)
    ∧ (∀ (srcFns : List String) (srow drow : Row) (fn : String),
        (pyStrip (pyGet drow fn) ≠ "" →
          pyGet (fillRow srcFns srow drow) fn = pyGet drow fn)
        ∧ (pyGet (fillRow srcFns srow drow) fn ≠ pyGet drow fn →
            pyStrip (pyGet drow fn) = "" ∧
            pyGet (fillRow srcFns srow drow) fn = pyStrip (pyGet srow fn) ∧
            pyStrip (pyGet srow fn) ≠ ""))
    ∧ merge_rows [[("issue_number", "5"), ("domain", "old.com"), ("author", "")]]
        [[("issue_number", "5"), ("domain", "new.com"), ("author", "alice")]]
        "issue_number" ["issue_number", "domain", "author"]
      = [[("issue_number", "5"), ("domain", "old.com"), ("author", "alice")]] := by
  refine ⟨?_, ?_, by rfl⟩
  · intro kf pre post srcR r0 srcFns hk hnk hpre
    set k := rowKey kf r0 with hkdef
    have hstep : KeepsP kf r0 k
        ((pre ++ r0 :: post).foldl (phase1Step kf) ⟨[], []⟩) := by
      rw [List.foldl_append, List.foldl_cons]
      have hnone : (pre.foldl (phase1Step kf) ⟨[], []⟩).idx.lookup k = none :=
        phase1_lookup_none kf k hnk pre ⟨[], []⟩
          (fun r hr => fun he => hpre r hr he) rfl
      have hest : KeepsP kf r0 k
          (phase1Step kf (pre.foldl (phase1Step kf) ⟨[], []⟩) r0) := by
        rw [phase1Step_eq, if_neg hk]
        rw [if_neg (by rw [← hkdef, hnone]; simp)]
        refine ⟨r0, ?_, List.mem_append_right _ (List.mem_singleton_self _), rfl, ?_⟩
        · rw [← hkdef, lookup_setA, if_pos rfl]
        · intro fn _; rfl
      exact foldl_preserve (KeepsP kf r0 k) (phase1Step kf) post
        (fun s row _ hs => phase1Step_keeps kf r0 k hnk s row hs) _ hest
    have hfinal : KeepsP kf r0 k
        (srcR.foldl (phase2Step kf srcFns)
          ((pre ++ r0 :: post).foldl (phase1Step kf) ⟨[], []⟩)) :=
      foldl_preserve (KeepsP kf r0 k) (phase2Step kf srcFns) srcR
        (fun s srow _ hs => phase2Step_keeps kf srcFns r0 k s srow hs) _ hstep
    obtain ⟨r1, hl, hmem, hrk, hprop⟩ := hfinal
    refine ⟨r1, ?_, hrk, hprop⟩
    rw [merge_rows_eq]
    refine List.mem_map.mpr ⟨k, hmem, ?_⟩
    rw [hl]
    rfl
  · intro srcFns srow drow fn
    exact ⟨fill_keeps srcFns srow drow fn, fill_diff srow srcFns drow fn⟩

/-- C1 witness at the claim's own example. -/
theorem c1_no_overwrite_witness :
    ∃ r1 ∈ merge_rows
        ([] ++ [("issue_number", "5"), ("domain", "old.com"), ("author", "")] :: [])
        [[("issue_number", "5"), ("domain", "new.com"), ("author", "alice")]]
        "issue_number" ["issue_number", "domain", "author"],
      rowKey "issue_number" r1
          = rowKey "issue_number"
              [("issue_number", "5"), ("domain", "old.com"), ("author", "")] ∧
      ∀ fn : String,
        pyStrip (pyGet [("issue_number", "5"), ("domain", "old.com"), ("author", "")] fn) ≠ "" →
        pyGet r1 fn
          = pyGet [("issue_number", "5"), ("domain", "old.com"), ("author", "")] fn :=
  c1_no_overwrite.1 "issue_number" [] []
    [[("issue_number", "5"), ("domain", "new.com"), ("author", "alice")]]
    [("issue_number", "5"), ("domain", "old.com"), ("author", "")]
    ["issue_number", "domain", "author"]
    (by decide) (by decide) (by intro r hr; simp at hr)

/-! ### Duplicate-domain report lemmas -/

theorem lookup_append {α β : Type} [BEq α] [LawfulBEq α] [DecidableEq α]
    (l1 l2 : List (α × β)) (k : α) :
    (l1 ++ l2).lookup k =
      match l1.lookup k with
      | some v => some v
      | none => l2.lookup k := by
  induction l1 with
  | nil => simp
  | cons p t ih =>
    obtain ⟨k2, v2⟩ := p
    rw [List.cons_append, lookup_cons_eq, lookup_cons_eq]
    by_cases h : k = k2
    · rw [if_pos h, if_pos h]
    · rw [if_neg h, if_neg h, ih]

theorem mval_addContrib (m : List (GroupKey × List String)) (k1 : GroupKey)
    (v : String) (k : GroupKey) :
    mval (addContrib m k1 v) k = mval m k ++ (if k = k1 then [v] else []) := by
  unfold addContrib
  rcases hl : m.lookup k1 with _ | l
  · unfold mval
    rw [lookup_append]
    by_cases h : k = k1
    · rw [if_pos h, h, hl]
      rw [show List.lookup k1 [(k1, [v])] = some [v] from by
        rw [lookup_cons_eq, if_pos rfl]]
      simp
    · rw [if_neg h]
      rcases h2 : m.lookup k with _ | l2
      · rw [show List.lookup k [(k1, [v])] = none from by
          rw [lookup_cons_eq, if_neg h]; rfl]
        simp
      · simp
  · unfold mval
    rw [lookup_setA]
    by_cases h : k = k1
    · rw [if_pos h, if_pos h, h, hl]
      simp
    · rw [if_neg h, if_neg h]
      simp

theorem contribsFor_cons (hr : Bool) (row : Row) (rest : List Row) (k : GroupKey) :
    contribsFor hr (row :: rest) k =
      (match dupContrib hr row with
       | some kv => if kv.1 = k then [kv.2] else []
       | none => []) ++ contribsFor hr rest k := by
  unfold contribsFor
  rw [List.filterMap_cons]
  rcases h : dupContrib hr row with _ | ⟨k1, v⟩
  · rfl
  · by_cases hk : k1 = k
    · simp only [Option.some_bind, if_pos hk]
      rfl
    · simp only [Option.some_bind, if_neg hk]
      rfl

theorem mval_buildDupMap_aux (hr : Bool) (k : GroupKey) :
    ∀ (rows : List Row) (m : List (GroupKey × List String)),
      mval (rows.foldl (dupStep hr) m) k = mval m k ++ contribsFor hr rows k := by
  intro rows
  induction rows with
  | nil => intro m; simp [contribsFor, mval]
  | cons row rest ih =>
    intro m
    rw [List.foldl_cons, ih (dupStep hr m row), contribsFor_cons]
    unfold dupStep
    rcases hc : dupContrib hr row with _ | ⟨k1, v⟩
    · rfl
    · by_cases h : k1 = k
      · simp only [if_pos h]
        rw [mval_addContrib m k1 v k, if_pos h.symm]
        rw [List.append_assoc]
      · simp only [if_neg h]
        rw [mval_addContrib m k1 v k, if_neg (fun hh => h hh.symm)]
        rw [List.append_nil]
        rfl

theorem mval_buildDupMap (hr : Bool) (rows : List Row) (k : GroupKey) :
    mval (buildDupMap hr rows) k = contribsFor hr rows k := by
  unfold buildDupMap
  rw [mval_buildDupMap_aux hr k rows []]
  rfl

theorem buildDupMap_keys_nodup (hr : Bool) (rows : List Row) :
    ((buildDupMap hr rows).map Prod.fst).Nodup := by
  unfold buildDupMap
  refine foldl_preserve (fun m => (m.map Prod.fst).Nodup) (dupStep hr) rows ?_ [] (by simp)
  intro m row _ hm
  unfold dupStep
  rcases hc : dupContrib hr row with _ | kv
  · exact hm
  · obtain ⟨k1, v⟩ := kv
    dsimp only
    unfold addContrib
    rcases hl : m.lookup k1 with _ | l
    · dsimp only
      rw [List.map_append]
      simp only [List.map_cons, List.map_nil]
      rw [List.nodup_append]
      refine ⟨hm, List.nodup_singleton _, ?_⟩
      intro a ha hb
      have hak : a = k1 := by simpa using hb
      rw [hak] at ha
      exact (lookup_eq_none_iff m k1).mp hl ha
    · dsimp only
      rw [map_fst_setA m k1 (l ++ [v]) (by rw [hl]; rfl)]
      exact hm

theorem char_toNat_inj (a b : Char) (h : a.toNat = b.toNat) : a = b := by
  have h2 := congrArg Char.ofNat h
  rwa [Char.ofNat_toNat, Char.ofNat_toNat] at h2

theorem strLtb_trans :
    ∀ (a b c : List Char), strLtb a b = true → strLtb b c = true → strLtb a c = true := by
  intro a
  induction a with
  | nil =>
    intro b c hab hbc
    cases b with
    | nil => exact absurd hab (by simp [strLtb])
    | cons b0 bs =>
      cases c with
      | nil => exact absurd hbc (by simp [strLtb])
      | cons c0 cs => simp [strLtb]
  | cons a0 as ih =>
    intro b c hab hbc
    cases b with
    | nil => exact absurd hab (by simp [strLtb])
    | cons b0 bs =>
      cases c with
      | nil => exact absurd hbc (by simp [strLtb])
      | cons c0 cs =>
        simp only [strLtb] at hab hbc ⊢
        by_cases h1 : a0.toNat < b0.toNat
        · by_cases h2 : b0.toNat < c0.toNat
          · rw [if_pos (show a0.toNat < c0.toNat by omega)]
          · rw [if_neg h2] at hbc
            by_cases h3 : c0.toNat < b0.toNat
            · rw [if_pos h3] at hbc
              exact absurd hbc (by simp)
            · rw [if_pos (show a0.toNat < c0.toNat by omega)]
        · rw [if_neg h1] at hab
          by_cases h2 : b0.toNat < a0.toNat
          · rw [if_pos h2] at hab
            exact absurd hab (by simp)
          · rw [if_neg h2] at hab
            by_cases h3 : b0.toNat < c0.toNat
            · rw [if_pos (show a0.toNat < c0.toNat by omega)]
            · rw [if_neg h3] at hbc
              by_cases h4 : c0.toNat < b0.toNat
              · rw [if_pos h4] at hbc
                exact absurd hbc (by simp)
              · rw [if_neg h4] at hbc
                rw [if_neg (show ¬ a0.toNat < c0.toNat by omega),
                  if_neg (show ¬ c0.toNat < a0.toNat by omega)]
                exact ih bs cs hab hbc

theorem strLtb_total :
    ∀ (a b : List Char), strLtb a b = false → strLtb b a = true ∨ a = b := by
  intro a
  induction a with
  | nil =>
    intro b hab
    cases b with
    | nil => exact Or.inr rfl
    | cons b0 bs => exact absurd hab (by simp [strLtb])
  | cons a0 as ih =>
    intro b hab
    cases b with
    | nil => exact Or.inl (by simp [strLtb])
    | cons b0 bs =>
      simp only [strLtb] at hab ⊢
      by_cases h1 : a0.toNat < b0.toNat
      · rw [if_pos h1] at hab
        exact absurd hab (by simp)
      · rw [if_neg h1] at hab
        by_cases h2 : b0.toNat < a0.toNat
        · exact Or.inl (by rw [if_pos h2])
        · rw [if_neg h2] at hab
          rcases ih bs hab with h | h
          · left
            rw [if_neg h2, if_neg h1]
            exact h
          · right
            have h0 : a0 = b0 := char_toNat_inj a0 b0 (by omega)
            rw [h0, h]

instance : IsTrans String pyStrLe := by
  constructor
  intro a b c hab hbc
  rcases hab with hab | rfl
  · rcases hbc with hbc | rfl
    · exact Or.inl (strLtb_trans a.data b.data c.data hab hbc)
    · exact Or.inl hab
  · exact hbc

instance : IsTotal String pyStrLe := by
  constructor
  intro a b
  by_cases h : strLtb a.data b.data = true
  · exact Or.inl (Or.inl h)
  · rcases strLtb_total a.data b.data (by simpa using h) with h2 | h2
    · exact Or.inr (Or.inl h2)
    · refine Or.inl (Or.inr ?_)
      have h3 : a.data = b.data := h2
      calc a = ⟨a.data⟩ := rfl
        _ = ⟨b.data⟩ := by rw [h3]
        _ = b := rfl

theorem pySortedSet_props (l : List String) :
    (pySortedSet l).Pairwise pyStrLe ∧ (pySortedSet l).Nodup := by
  constructor
  · exact List.sorted_insertionSort pyStrLe ((l.filter (· ≠ "")).dedup)
  · exact ((List.perm_insertionSort pyStrLe ((l.filter (· ≠ "")).dedup)).nodup_iff).mpr
      (List.nodup_dedup _)

theorem report_dup_domains_eq (r0 : Row) (rest : List Row) :
    report_dup_domains (r0 :: rest) =
      if (r0.lookup "domain").isSome then
        (List.insertionSort (fun a b => gkLe a.1 b.1)
            ((buildDupMap ((r0 :: rest).any (fun r => (r.lookup "repo").isSome))
                (r0 :: rest)).filter (fun kv => 1 < kv.2.length))).map
          (fun kv => (kv.1, pySortedSet kv.2))
      else [] := rfl

theorem report_mem_iff (r0 : Row) (rest : List Row)
    (hgate : (r0.lookup "domain").isSome) (k : GroupKey) (L : List String) :
    (k, L) ∈ report_dup_domains (r0 :: rest) ↔
      1 < (contribsFor ((r0 :: rest).any (fun r => (r.lookup "repo").isSome))
            (r0 :: rest) k).length
      ∧ L = pySortedSet (contribsFor ((r0 :: rest).any (fun r => (r.lookup "repo").isSome))
            (r0 :: rest) k) := by
  rw [report_dup_domains_eq, if_pos hgate]
  constructor
  · intro hmem
    obtain ⟨kv, hkv, heq⟩ := List.mem_map.mp hmem
    obtain ⟨k1, l0⟩ := kv
    have hkf : k1 = k := congrArg Prod.fst heq
    have hL : pySortedSet l0 = L := congrArg Prod.snd heq
    have hkv2 : (k1, l0) ∈ (buildDupMap ((r0 :: rest).any (fun r => (r.lookup "repo").isSome))
        (r0 :: rest)).filter (fun kv => 1 < kv.2.length) :=
      ((List.perm_insertionSort _ _).mem_iff).mp hkv
    obtain ⟨hkvm, hlen⟩ := List.mem_filter.mp hkv2
    have hlk := (mem_iff_lookup _ (buildDupMap_keys_nodup _ _) k1 l0).mp hkvm
    rw [hkf] at hlk
    have hv : l0 = contribsFor ((r0 :: rest).any (fun r => (r.lookup "repo").isSome))
        (r0 :: rest) k := by
      have hm := mval_buildDupMap ((r0 :: rest).any (fun r => (r.lookup "repo").isSome))
        (r0 :: rest) k
      unfold mval at hm
      rw [hlk] at hm
      simpa using hm
    refine ⟨?_, ?_⟩
    · rw [← hv]
      simpa using hlen
    · rw [← hv, ← hL]
  · rintro ⟨hlen, rfl⟩
    have hm := mval_buildDupMap ((r0 :: rest).any (fun r => (r.lookup "repo").isSome))
      (r0 :: rest) k
    rcases hlk : (buildDupMap ((r0 :: rest).any (fun r => (r.lookup "repo").isSome))
        (r0 :: rest)).lookup k with _ | l0
    · exfalso
      unfold mval at hm
      rw [hlk] at hm
      simp only [Option.getD_none] at hm
      rw [← hm] at hlen
      simp at hlen
    · have hv : l0 = contribsFor ((r0 :: rest).any (fun r => (r.lookup "repo").isSome))
          (r0 :: rest) k := by
        unfold mval at hm
        rw [hlk] at hm
        simpa using hm
      apply List.mem_map.mpr
      refine ⟨(k, l0), ?_, by rw [hv]⟩
      apply ((List.perm_insertionSort _ _).mem_iff).mpr
      apply List.mem_filter.mpr
      refine ⟨(mem_iff_lookup _ (buildDupMap_keys_nodup _ _) k l0).mpr hlk, ?_⟩
      rw [hv]
      simpa using hlen

/-- C5 (counterexample): two rows with the SAME issue number and the same
domain form a reported group, although the group has only one distinct
key — the code filters on `len(lst) > 1`, counting occurrences, not
distinct keys.  The single key `1` is what gets listed. -/
theorem c5_counterexample :
    report_dup_domains
        [[("issue_number", "1"), ("domain", "a.com")],
         [("issue_number", "1"), ("domain", "a.com")]]
      = [((none, "a.com"), ["1"])]
    ∧ (contribsFor false
        [[("issue_number", "1"), ("domain", "a.com")],
         [("issue_number", "1"), ("domain", "a.com")]] (none, "a.com")).dedup.length = 1 := by
  constructor
  · rfl
  · rfl

/-- C5 (amended): after the gate on a `domain` column in the first row,
a group `(k, L)` is reported iff MORE THAN ONE ROW contributes to `k`
(occurrences counted with multiplicity — rows repeating the same key
still trigger the report), and `L` is the deduplicated sorted list of
the contributing keys; every printed key list is sorted and duplicate
free. -/
theorem c5_dup_groups :
    (∀ (r0 : Row) (rest : List Row) (k : GroupKey) (L : List String),
      (r0.lookup "domain").isSome →
      ((k, L) ∈ report_dup_domains (r0 :: rest) ↔
        1 < (contribsFor ((r0 :: rest).any (fun r => (r.lookup "repo").isSome))
              (r0 :: rest) k).length
        ∧ L = pySortedSet (contribsFor ((r0 :: rest).any (fun r => (r.lookup "repo").isSome))
              (r0 :: rest) k)))
    ∧ ∀ l : List String, (pySortedSet l).Pairwise pyStrLe ∧ (pySortedSet l).Nodup := by
  exact ⟨fun r0 rest k L hg => report_mem_iff r0 rest hg k L, pySortedSet_props⟩

/-- C5 witness: a domain shared by issues 2 and 1 is reported with the
keys deduplicated and sorted. -/
theorem c5_dup_groups_witness :
    ((none, "a.com"), ["1", "2"]) ∈ report_dup_domains
      [[("issue_number", "2"), ("domain", "a.com")],
       [("issue_number", "1"), ("domain", "www.a.com")],
       [("issue_number", "2"), ("domain", "b.org")]] :=
  (c5_dup_groups.1
    [("issue_number", "2"), ("domain", "a.com")]
    [[("issue_number", "1"), ("domain", "www.a.com")],
     [("issue_number", "2"), ("domain", "b.org")]]
    (none, "a.com") ["1", "2"] (by rfl)).mpr (by exact ⟨by decide, by decide⟩)

theorem keysE_append (keys : List String) (x : String)
    (he : ∀ (i : Nat) (h : i < keys.length),
      hasPseudoStem (keys.get ⟨i, h⟩) → keys.get ⟨i, h⟩ = pseudoKey i)
    (hx : hasPseudoStem x → x = pseudoKey keys.length) :
    ∀ (i : Nat) (h : i < (keys ++ [x]).length),
      hasPseudoStem ((keys ++ [x]).get ⟨i, h⟩) →
      (keys ++ [x]).get ⟨i, h⟩ = pseudoKey i := by
  intro i h
  by_cases hi : i < keys.length
  · rw [List.get_eq_getElem, List.getElem_append_left hi]
    intro hs
    have h2 := he i hi
    rw [List.get_eq_getElem] at h2
    exact h2 hs
  · have hilen : i = keys.length := by
      simp only [List.length_append, List.length_singleton] at h
      omega
    rw [List.get_eq_getElem, List.getElem_concat_length keys x i hilen]
    rw [hilen]
    exact hx

theorem count_eq_zero_of_notMem (l : List String) (k : String) (h : k ∉ l) :
    l.count k = 0 :=
  List.count_eq_zero.mpr h

theorem InvM_phase1Step (kf : String) (st : MSt) (row : Row)
    (hrow : ¬ hasPseudoStem (rowKey kf row)) (h : InvM kf st) :
    InvM kf (phase1Step kf st row) := by
  obtain ⟨ha, hb, hc, hd, he⟩ := h
  rw [phase1Step_eq]
  by_cases hkey : rowKey kf row = ""
  · rw [if_pos hkey]
    have hstp := pseudoKey_stem st.keys.length
    refine ⟨?_, ?_, ?_, ?_, ?_⟩
    · intro k hk
      rcases List.mem_append.mp hk with hk | hk
      · exact ha k hk
      · rw [List.mem_singleton.mp hk]
        exact pseudoKey_ne_empty _
    · intro k
      show ((setA st.idx (pseudoKey st.keys.length) row).lookup k).isSome
          ↔ k ∈ st.keys ++ [pseudoKey st.keys.length]
      rw [lookup_setA]
      by_cases hkp : k = pseudoKey st.keys.length
      · rw [if_pos hkp]
        simp [hkp]
      · rw [if_neg hkp]
        rw [List.mem_append]
        exact (hb k).trans (by simp [hkp])
    · intro k hk hks
      have hkp : k ≠ pseudoKey st.keys.length := by
        intro h2
        exact hks (h2 ▸ hstp)
      have hk2 : k ∈ st.keys := by
        rcases List.mem_append.mp hk with h2 | h2
        · exact h2
        · exact absurd (List.mem_singleton.mp h2) hkp
      rw [List.count_append, List.count_singleton,
        if_neg (by simp only [beq_iff_eq]; exact fun h2 => hkp h2.symm)]
      rw [Nat.add_zero]
      exact hc k hk2 hks
    · intro k r hlr
      show _ ∧ _
      rw [show ((⟨setA st.idx (pseudoKey st.keys.length) row,
          st.keys ++ [pseudoKey st.keys.length]⟩ : MSt)).idx
            = setA st.idx (pseudoKey st.keys.length) row from rfl] at hlr
      rw [lookup_setA] at hlr
      by_cases hkp : k = pseudoKey st.keys.length
      · rw [if_pos hkp] at hlr
        obtain rfl : row = r := Option.some.inj hlr
        constructor
        · intro hns
          exact absurd (hkp ▸ hstp) hns
        · intro _
          exact hkey
      · rw [if_neg hkp] at hlr
        exact hd k r hlr
    · exact keysE_append st.keys (pseudoKey st.keys.length) he (fun _ => rfl)
  · rw [if_neg hkey]
    by_cases hsome : (st.idx.lookup (rowKey kf row)).isSome
    · rw [if_pos hsome]
      exact ⟨ha, hb, hc, hd, he⟩
    · rw [if_neg hsome]
      have hnotin : rowKey kf row ∉ st.keys := fun hm => hsome ((hb _).mpr hm)
      refine ⟨?_, ?_, ?_, ?_, ?_⟩
      · intro k hk
        rcases List.mem_append.mp hk with hk | hk
        · exact ha k hk
        · rw [List.mem_singleton.mp hk]
          exact hkey
      · intro k
        show ((setA st.idx (rowKey kf row) row).lookup k).isSome
            ↔ k ∈ st.keys ++ [rowKey kf row]
        rw [lookup_setA]
        by_cases hkp : k = rowKey kf row
        · rw [if_pos hkp]
          simp [hkp]
        · rw [if_neg hkp]
          rw [List.mem_append]
          exact (hb k).trans (by simp [hkp])
      · intro k hk hks
        rw [List.count_append, List.count_singleton]
        by_cases hkp : k = rowKey kf row
        · rw [if_pos (by simp [hkp])]
          rw [hkp, count_eq_zero_of_notMem st.keys (rowKey kf row) hnotin]
        · rw [if_neg (by simp only [beq_iff_eq]; exact fun h2 => hkp h2.symm)]
          have hk2 : k ∈ st.keys := by
            rcases List.mem_append.mp hk with h2 | h2
            · exact h2
            · exact absurd (List.mem_singleton.mp h2) hkp
          rw [Nat.add_zero]
          exact hc k hk2 hks
      · intro k r hlr
        show _ ∧ _
        rw [show ((⟨setA st.idx (rowKey kf row) row,
            st.keys ++ [rowKey kf row]⟩ : MSt)).idx
              = setA st.idx (rowKey kf row) row from rfl] at hlr
        rw [lookup_setA] at hlr
        by_cases hkp : k = rowKey kf row
        · rw [if_pos hkp] at hlr
          obtain rfl : row = r := Option.some.inj hlr
          constructor
          · intro _
            exact hkp.symm
          · intro hs
            exact absurd (hkp ▸ hs) hrow
        · rw [if_neg hkp] at hlr
          exact hd k r hlr
      · exact keysE_append st.keys (rowKey kf row) he (fun hs => absurd hs hrow)

theorem InvM_phase2Step (kf : String) (srcFns : List String) (st : MSt) (srow : Row)
    (hrow : ¬ hasPseudoStem (rowKey kf srow)) (h : InvM kf st) :
    InvM kf (phase2Step kf srcFns st srow) := by
  obtain ⟨ha, hb, hc, hd, he⟩ := h
  rw [phase2Step_eq]
  by_cases hkey : rowKey kf srow = ""
  · rw [if_pos hkey]
    exact ⟨ha, hb, hc, hd, he⟩
  · rw [if_neg hkey]
    rcases hl : st.idx.lookup (rowKey kf srow) with _ | drow
    · have hnotin : rowKey kf srow ∉ st.keys := by
        intro hm
        have h2 := (hb _).mpr hm
        rw [hl] at h2
        simp at h2
      refine ⟨?_, ?_, ?_, ?_, ?_⟩
      · intro k hk
        rcases List.mem_append.mp hk with hk | hk
        · exact ha k hk
        · rw [List.mem_singleton.mp hk]
          exact hkey
      · intro k
        show ((setA st.idx (rowKey kf srow) srow).lookup k).isSome
            ↔ k ∈ st.keys ++ [rowKey kf srow]
        rw [lookup_setA]
        by_cases hkp : k = rowKey kf srow
        · rw [if_pos hkp]
          simp [hkp]
        · rw [if_neg hkp]
          rw [List.mem_append]
          exact (hb k).trans (by simp [hkp])
      · intro k hk hks
        rw [List.count_append, List.count_singleton]
        by_cases hkp : k = rowKey kf srow
        · rw [if_pos (by simp [hkp])]
          rw [hkp, count_eq_zero_of_notMem st.keys (rowKey kf srow) hnotin]
        · rw [if_neg (by simp only [beq_iff_eq]; exact fun h2 => hkp h2.symm)]
          have hk2 : k ∈ st.keys := by
            rcases List.mem_append.mp hk with h2 | h2
            · exact h2
            · exact absurd (List.mem_singleton.mp h2) hkp
          rw [Nat.add_zero]
          exact hc k hk2 hks
      · intro k r hlr
        show _ ∧ _
        rw [show ((⟨setA st.idx (rowKey kf srow) srow,
            st.keys ++ [rowKey kf srow]⟩ : MSt)).idx
              = setA st.idx (rowKey kf srow) srow from rfl] at hlr
        rw [lookup_setA] at hlr
        by_cases hkp : k = rowKey kf srow
        · rw [if_pos hkp] at hlr
          obtain rfl : srow = r := Option.some.inj hlr
          constructor
          · intro _
            exact hkp.symm
          · intro hs
            exact absurd (hkp ▸ hs) hrow
        · rw [if_neg hkp] at hlr
          exact hd k r hlr
      · exact keysE_append st.keys (rowKey kf srow) he (fun hs => absurd hs hrow)
    · have hdk := hd (rowKey kf srow) drow hl
      have hrkd : rowKey kf drow = rowKey kf srow := hdk.1 hrow
      refine ⟨ha, ?_, hc, ?_, he⟩
      · intro k
        show ((setA st.idx (rowKey kf srow) (fillRow srcFns srow drow)).lookup k).isSome
            ↔ k ∈ st.keys
        rw [lookup_setA]
        by_cases hkp : k = rowKey kf srow
        · rw [if_pos hkp]
          simp only [Option.isSome_some, true_iff]
          rw [hkp]
          apply (hb _).mp
          rw [hl]
          rfl
        · rw [if_neg hkp]
          exact hb k
      · intro k r hlr
        show _ ∧ _
        rw [show ((⟨setA st.idx (rowKey kf srow) (fillRow srcFns srow drow),
            st.keys⟩ : MSt)).idx
              = setA st.idx (rowKey kf srow) (fillRow srcFns srow drow) from rfl] at hlr
        rw [lookup_setA] at hlr
        by_cases hkp : k = rowKey kf srow
        · rw [if_pos hkp] at hlr
          obtain rfl : fillRow srcFns srow drow = r := Option.some.inj hlr
          constructor
          · intro _
            have hne : pyStrip (pyGet drow kf) ≠ "" := by
              unfold rowKey at hrkd
              rw [hrkd]
              exact hkey
            unfold rowKey
            rw [fill_keeps srcFns srow drow kf hne]
            rw [← hkp] at hrkd
            exact hrkd
          · intro hs
            exact absurd (hkp ▸ hs) hrow
        · rw [if_neg hkp] at hlr
          exact hd k r hlr

theorem InvM_init (kf : String) : InvM kf ⟨[], []⟩ := by
  refine ⟨?_, ?_, ?_, ?_, ?_⟩
  · intro k hk
    simp at hk
  · intro k
    simp [List.lookup]
  · intro k hk
    simp at hk
  · intro k r hlr
    simp [List.lookup] at hlr
  · intro i h
    simp at h

theorem InvM_final (kf : String) (srcFns : List String) (dbR srcR : List Row)
    (hdb : ∀ r ∈ dbR, ¬ hasPseudoStem (rowKey kf r))
    (hsrc : ∀ s ∈ srcR, ¬ hasPseudoStem (rowKey kf s)) :
    InvM kf (srcR.foldl (phase2Step kf srcFns) (dbR.foldl (phase1Step kf) ⟨[], []⟩)) := by
  have h1 : InvM kf (dbR.foldl (phase1Step kf) ⟨[], []⟩) :=
    foldl_preserve (InvM kf) (phase1Step kf) dbR
      (fun s r hr hs => InvM_phase1Step kf s r (hdb r hr) hs) ⟨[], []⟩ (InvM_init kf)
  exact foldl_preserve (InvM kf) (phase2Step kf srcFns) srcR
    (fun s r hr hs => InvM_phase2Step kf srcFns s r (hsrc r hr) hs) _ h1

theorem lookup_isSome_p1 (kf k : String) (st : MSt) (row : Row)
    (h : (st.idx.lookup k).isSome) :
    ((phase1Step kf st row).idx.lookup k).isSome := by
  rw [phase1Step_eq]
  by_cases hkey : rowKey kf row = ""
  · rw [if_pos hkey]
    show ((setA st.idx (pseudoKey st.keys.length) row).lookup k).isSome
    rw [lookup_setA]
    split_ifs with h2
    · rfl
    · exact h
  · rw [if_neg hkey]
    by_cases hsome : (st.idx.lookup (rowKey kf row)).isSome
    · rw [if_pos hsome]
      exact h
    · rw [if_neg hsome]
      show ((setA st.idx (rowKey kf row) row).lookup k).isSome
      rw [lookup_setA]
      split_ifs with h2
      · rfl
      · exact h

theorem lookup_isSome_p2 (kf : String) (srcFns : List String) (k : String)
    (st : MSt) (srow : Row) (h : (st.idx.lookup k).isSome) :
    ((phase2Step kf srcFns st srow).idx.lookup k).isSome := by
  rw [phase2Step_eq]
  by_cases hkey : rowKey kf srow = ""
  · rw [if_pos hkey]
    exact h
  · rw [if_neg hkey]
    rcases hl : st.idx.lookup (rowKey kf srow) with _ | drow
    · show ((setA st.idx (rowKey kf srow) srow).lookup k).isSome
      rw [lookup_setA]
      split_ifs with h2
      · rfl
      · exact h
    · show ((setA st.idx (rowKey kf srow) (fillRow srcFns srow drow)).lookup k).isSome
      rw [lookup_setA]
      split_ifs with h2
      · rfl
      · exact h

theorem establish_p1 (kf : String) (st : MSt) (row : Row)
    (hkey : rowKey kf row ≠ "") :
    ((phase1Step kf st row).idx.lookup (rowKey kf row)).isSome := by
  rw [phase1Step_eq, if_neg hkey]
  by_cases hsome : (st.idx.lookup (rowKey kf row)).isSome
  · rw [if_pos hsome]
    exact hsome
  · rw [if_neg hsome]
    show ((setA st.idx (rowKey kf row) row).lookup (rowKey kf row)).isSome
    rw [lookup_setA, if_pos rfl]
    rfl

theorem establish_p2 (kf : String) (srcFns : List String) (st : MSt) (srow : Row)
    (hkey : rowKey kf srow ≠ "") :
    ((phase2Step kf srcFns st srow).idx.lookup (rowKey kf srow)).isSome := by
  rw [phase2Step_eq, if_neg hkey]
  rcases hl : st.idx.lookup (rowKey kf srow) with _ | drow
  · show ((setA st.idx (rowKey kf srow) srow).lookup (rowKey kf srow)).isSome
    rw [lookup_setA, if_pos rfl]
    rfl
  · show ((setA st.idx (rowKey kf srow)
        (fillRow srcFns srow drow)).lookup (rowKey kf srow)).isSome
    rw [lookup_setA, if_pos rfl]
    rfl

theorem foldl_establish {σ α : Type} (step : σ → α → σ) (P : σ → Prop)
    (mono : ∀ (s : σ) (a : α), P s → P (step s a)) (l : List α) (a : α) (ha : a ∈ l)
    (est : ∀ s : σ, P (step s a)) (s0 : σ) : P (l.foldl step s0) := by
  obtain ⟨l1, l2, rfl⟩ := List.append_of_mem ha
  rw [List.foldl_append, List.foldl_cons]
  exact foldl_preserve P step l2 (fun s b _ => mono s b) _ (est _)

theorem key_isSome_final (kf : String) (srcFns : List String) (dbR srcR : List Row)
    (k : String) (hk : k ≠ "")
    (hoc : (∃ r ∈ dbR, rowKey kf r = k) ∨ (∃ s ∈ srcR, rowKey kf s = k)) :
    (((srcR.foldl (phase2Step kf srcFns)
        (dbR.foldl (phase1Step kf) ⟨[], []⟩))).idx.lookup k).isSome := by
  rcases hoc with ⟨r, hr, hrk⟩ | ⟨s, hs, hsk⟩
  · have h1 : ((dbR.foldl (phase1Step kf) ⟨[], []⟩).idx.lookup k).isSome := by
      refine foldl_establish (phase1Step kf)
        (fun st => (st.idx.lookup k).isSome)
        (fun st a => lookup_isSome_p1 kf k st a) dbR r hr ?_ ⟨[], []⟩
      intro st
      rw [← hrk]
      exact establish_p1 kf st r (by rw [hrk]; exact hk)
    exact foldl_preserve (fun st => (st.idx.lookup k).isSome)
      (phase2Step kf srcFns) srcR
      (fun st a _ => lookup_isSome_p2 kf srcFns k st a) _ h1
  · refine foldl_establish (phase2Step kf srcFns)
      (fun st => (st.idx.lookup k).isSome)
      (fun st a => lookup_isSome_p2 kf srcFns k st a) srcR s hs ?_ _
    intro st
    rw [← hsk]
    exact establish_p2 kf srcFns st s (by rw [hsk]; exact hk)

/-- C8 (counterexample): the persistent key `__NO_KEY__1` occurs in the
table but corresponds to zero rows of the merged output: the keyless
second row receives the synthetic key `__NO_KEY__1` and displaces it. -/
theorem c8_counterexample :
    rowKey "issue_number" [("issue_number", "__NO_KEY__1"), ("a", "1")] = "__NO_KEY__1"
    ∧ ((merge_rows
          [[("issue_number", "__NO_KEY__1"), ("a", "1")], [("issue_number", "")]]
          [] "issue_number" []).filter
        (fun r => rowKey "issue_number" r = "__NO_KEY__1")).length = 0 := by
  constructor
  · rfl
  · rfl

/-- C8 (amended): provided no row key in either table begins with the
reserved stem `__NO_KEY__`, every distinct non-empty key occurring in
either table corresponds to exactly one row of the merged output (first
occurrence wins for duplicate persistent keys). -/
theorem c8_key_unique :
    ∀ (dbR srcR : List Row) (kf : String) (srcFns : List String) (k : String),
      (∀ r ∈ dbR, ¬ hasPseudoStem (rowKey kf r)) →
      (∀ s ∈ srcR, ¬ hasPseudoStem (rowKey kf s)) →
      k ≠ "" →
      ((∃ r ∈ dbR, rowKey kf r = k) ∨ (∃ s ∈ srcR, rowKey kf s = k)) →
      ((merge_rows dbR srcR kf srcFns).filter (fun r => rowKey kf r = k)).length = 1 := by
  intro dbR srcR kf srcFns k hdb hsrc hk hoc
  obtain ⟨ha, hb, hc, hd, he⟩ := InvM_final kf srcFns dbR srcR hdb hsrc
  have hks : ¬ hasPseudoStem k := by
    rcases hoc with ⟨r, hr, hrk⟩ | ⟨s, hs, hsk⟩
    · rw [← hrk]
      exact hdb r hr
    · rw [← hsk]
      exact hsrc s hs
  have hsome := key_isSome_final kf srcFns dbR srcR k hk hoc
  have hmem := (hb k).mp hsome
  rw [merge_rows_eq, List.filter_map, List.length_map]
  have hcongr : List.filter
      ((fun r => decide (rowKey kf r = k)) ∘
        (fun k2 => (((srcR.foldl (phase2Step kf srcFns)
            (dbR.foldl (phase1Step kf) ⟨[], []⟩))).idx.lookup k2).getD []))
      ((srcR.foldl (phase2Step kf srcFns)
          (dbR.foldl (phase1Step kf) ⟨[], []⟩))).keys
      = List.filter (fun k2 => k2 == k)
        ((srcR.foldl (phase2Step kf srcFns)
            (dbR.foldl (phase1Step kf) ⟨[], []⟩))).keys := by
    apply List.filter_congr
    intro k2 hk2
    have hsome2 := (hb k2).mpr hk2
    rcases hl2 : (((srcR.foldl (phase2Step kf srcFns)
        (dbR.foldl (phase1Step kf) ⟨[], []⟩))).idx.lookup k2) with _ | r2
    · rw [hl2] at hsome2
      simp at hsome2
    · have hd2 := hd k2 r2 hl2
      simp only [Function.comp_apply]
      rw [hl2, Option.getD_some]
      by_cases hstem : hasPseudoStem k2
      · have hr2 : rowKey kf r2 = "" := hd2.2 hstem
        have hne2 : k2 ≠ k := fun h2 => hks (h2 ▸ hstem)
        have hfa : decide (rowKey kf r2 = k) = false :=
          decide_eq_false (by rw [hr2]; exact fun h2 => hk h2.symm)
        rw [hfa, beq_false_of_ne hne2]
      · have hr2 : rowKey kf r2 = k2 := hd2.1 hstem
        rw [hr2]
        by_cases h2 : k2 = k
        · rw [h2]
          simp
        · rw [decide_eq_false h2, beq_false_of_ne h2]
  rw [hcongr, show (List.filter (fun k2 => k2 == k)
      ((srcR.foldl (phase2Step kf srcFns)
          (dbR.foldl (phase1Step kf) ⟨[], []⟩))).keys).length
    = ((srcR.foldl (phase2Step kf srcFns)
          (dbR.foldl (phase1Step kf) ⟨[], []⟩))).keys.count k from by
    rw [← List.countP_eq_length_filter]
    rfl]
  exact hc k hmem hks

/-- C8 witness: a single persistent row with key `7` appears exactly once. -/
theorem c8_key_unique_witness :
    ((merge_rows [[("issue_number", "7")]] [] "issue_number" []).filter
      (fun r => rowKey "issue_number" r = "7")).length = 1 :=
  c8_key_unique [[("issue_number", "7")]] [] "issue_number" [] "7"
    (by intro r hr; rw [List.mem_singleton.mp hr]; decide)
    (by intro s hs; simp at hs)
    (by decide)
    (Or.inl ⟨[("issue_number", "7")], List.mem_singleton_self _, by decide⟩)

/-! ### Idempotence machinery -/

/-- After its source row is processed, the stored row under the row's key
has every field nonempty that the source row has nonempty. -/
def FilledFor (kf : String) (srcFns : List String) (srow : Row) (st : MSt) : Prop :=
  ∃ r : Row, st.idx.lookup (rowKey kf srow) = some r ∧
    ∀ fn ∈ srcFns, pyStrip (pyGet srow fn) ≠ "" → pyStrip (pyGet r fn) ≠ ""

theorem FilledFor_mono (kf : String) (srcFns : List String) (srow : Row)
    (st : MSt) (srow2 : Row) (h : FilledFor kf srcFns srow st) :
    FilledFor kf srcFns srow (phase2Step kf srcFns st srow2) := by
  obtain ⟨r, hl, hp⟩ := h
  rw [phase2Step_eq]
  by_cases hkey : rowKey kf srow2 = ""
  · rw [if_pos hkey]
    exact ⟨r, hl, hp⟩
  · rw [if_neg hkey]
    rcases hl2 : st.idx.lookup (rowKey kf srow2) with _ | drow
    · by_cases heq : rowKey kf srow = rowKey kf srow2
      · rw [← heq, hl] at hl2
        cases hl2
      · refine ⟨r, ?_, hp⟩
        show (setA st.idx (rowKey kf srow2) srow2).lookup (rowKey kf srow) = some r
        rw [lookup_setA, if_neg heq]
        exact hl
    · by_cases heq : rowKey kf srow = rowKey kf srow2
      · have hdr : r = drow := by
          rw [← heq] at hl2
          exact Option.some.inj (hl.symm.trans hl2)
        refine ⟨fillRow srcFns srow2 drow, ?_, ?_⟩
        · show (setA st.idx (rowKey kf srow2)
              (fillRow srcFns srow2 drow)).lookup (rowKey kf srow)
            = some (fillRow srcFns srow2 drow)
          rw [lookup_setA, if_pos heq]
        · intro fn hfn hs
          have h2 : pyStrip (pyGet drow fn) ≠ "" := by
            rw [← hdr]
            exact hp fn hfn hs
          rw [fill_keeps srcFns srow2 drow fn h2]
          exact h2
      · refine ⟨r, ?_, hp⟩
        show (setA st.idx (rowKey kf srow2)
            (fillRow srcFns srow2 drow)).lookup (rowKey kf srow) = some r
        rw [lookup_setA, if_neg heq]
        exact hl

theorem FilledFor_establish (kf : String) (srcFns : List String) (srow : Row)
    (st : MSt) (hkey : rowKey kf srow ≠ "") :
    FilledFor kf srcFns srow (phase2Step kf srcFns st srow) := by
  rw [phase2Step_eq, if_neg hkey]
  rcases hl : st.idx.lookup (rowKey kf srow) with _ | drow
  · refine ⟨srow, ?_, ?_⟩
    · show (setA st.idx (rowKey kf srow) srow).lookup (rowKey kf srow) = some srow
      rw [lookup_setA, if_pos rfl]
    · intro fn _ hs
      exact hs
  · refine ⟨fillRow srcFns srow drow, ?_, ?_⟩
    · show (setA st.idx (rowKey kf srow)
          (fillRow srcFns srow drow)).lookup (rowKey kf srow)
        = some (fillRow srcFns srow drow)
      rw [lookup_setA, if_pos rfl]
    · intro fn hfn hs
      exact fill_nonempty srow srcFns drow fn hfn hs

theorem FilledFor_final (kf : String) (srcFns : List String) (dbR srcR : List Row)
    (srow : Row) (hmem : srow ∈ srcR) (hkey : rowKey kf srow ≠ "") :
    FilledFor kf srcFns srow
      (srcR.foldl (phase2Step kf srcFns) (dbR.foldl (phase1Step kf) ⟨[], []⟩)) := by
  refine foldl_establish (phase2Step kf srcFns) (FilledFor kf srcFns srow)
    (fun st a => FilledFor_mono kf srcFns srow st a) srcR srow hmem ?_ _
  intro st
  exact FilledFor_establish kf srcFns srow st hkey

theorem phase2_noop (kf : String) (srcFns : List String) :
    ∀ (srcR : List Row) (st : MSt),
      (∀ srow ∈ srcR, rowKey kf srow = "" ∨
        ∃ r : Row, st.idx.lookup (rowKey kf srow) = some r ∧
          (∀ fn ∈ srcFns, pyStrip (pyGet srow fn) = "" ∨ pyStrip (pyGet r fn) ≠ "")) →
      srcR.foldl (phase2Step kf srcFns) st = st := by
  intro srcR
  induction srcR with
  | nil => intro st _; rfl
  | cons srow rest ih =>
    intro st h
    have hstep : phase2Step kf srcFns st srow = st := by
      rcases h srow (List.mem_cons_self srow rest) with hk | ⟨r, hl, hfn⟩
      · rw [phase2Step_eq, if_pos hk]
      · have hkey : rowKey kf srow ≠ "" ∨ rowKey kf srow = "" := (em _).symm
        by_cases hk : rowKey kf srow = ""
        · rw [phase2Step_eq, if_pos hk]
        · rw [phase2Step_eq, if_neg hk, hl]
          show (⟨setA st.idx (rowKey kf srow) (fillRow srcFns srow r), st.keys⟩ : MSt) = st
          rw [fill_noop srow srcFns r hfn, setA_lookup_self st.idx (rowKey kf srow) r hl]
    rw [List.foldl_cons, hstep]
    exact ih st (fun s hs => h s (List.mem_cons_of_mem srow hs))

theorem phase1_map_aux (kf : String) (f : String → Row) (ks : List String)
    (h1 : ∀ k ∈ ks, k ≠ "")
    (h2 : ∀ k ∈ ks, ¬ hasPseudoStem k → rowKey kf (f k) = k)
    (h3 : ∀ k ∈ ks, hasPseudoStem k → rowKey kf (f k) = "")
    (h4 : ∀ k ∈ ks, ¬ hasPseudoStem k → ks.count k = 1)
    (h5 : ∀ (i : Nat) (h : i < ks.length),
      hasPseudoStem (ks.get ⟨i, h⟩) → ks.get ⟨i, h⟩ = pseudoKey i) :
    ∀ (rest done : List String) (st : MSt),
      ks = done ++ rest →
      st.keys = done →
      (∀ k2 : String, st.idx.lookup k2 = if k2 ∈ done then some (f k2) else none) →
      ((rest.map f).foldl (phase1Step kf) st).keys = ks ∧
      (∀ k2 : String, ((rest.map f).foldl (phase1Step kf) st).idx.lookup k2
          = if k2 ∈ ks then some (f k2) else none) := by
  intro rest
  induction rest with
  | nil =>
    intro done st hks hkeys hidx
    rw [List.append_nil] at hks
    constructor
    · rw [List.map_nil, List.foldl_nil, hkeys, hks]
    · intro k2
      rw [List.map_nil, List.foldl_nil, hidx k2, hks]
  | cons k0 rest ih =>
    intro done st hks hkeys hidx
    subst hks
    have hk0mem : k0 ∈ done ++ k0 :: rest :=
      List.mem_append_right done (List.mem_cons_self k0 rest)
    rw [List.map_cons, List.foldl_cons]
    by_cases hstem : hasPseudoStem k0
    · -- synthetic entry: the stored row has an empty key, and k0 is the
      -- synthetic key of this very position
      have hkey0 : rowKey kf (f k0) = "" := h3 k0 hk0mem hstem
      have hpos : k0 = pseudoKey done.length := by
        have hlen : done.length < (done ++ k0 :: rest).length := by
          rw [List.length_append, List.length_cons]
          omega
        have hget : (done ++ k0 :: rest).get ⟨done.length, hlen⟩ = k0 := by
          rw [List.get_eq_getElem,
            List.getElem_append_right (Nat.le_refl done.length)]
          simp
        have h6 := h5 done.length hlen
        rw [hget] at h6
        exact h6 hstem
      have hstep : phase1Step kf st (f k0)
          = ⟨setA st.idx k0 (f k0), done ++ [k0]⟩ := by
        rw [phase1Step_eq, if_pos hkey0, hkeys, ← hpos]
      rw [hstep]
      refine ih (done ++ [k0]) ⟨setA st.idx k0 (f k0), done ++ [k0]⟩ ?_ rfl ?_
      · rw [List.append_assoc, List.singleton_append]
      · intro k2
        show (setA st.idx k0 (f k0)).lookup k2 = _
        rw [lookup_setA]
        by_cases hk2 : k2 = k0
        · rw [if_pos hk2, if_pos (by rw [hk2]; exact List.mem_append_right _ (List.mem_singleton_self k0))]
          rw [hk2]
        · rw [if_neg hk2, hidx k2]
          by_cases hk2d : k2 ∈ done
          · rw [if_pos hk2d, if_pos (List.mem_append_left _ hk2d)]
          · rw [if_neg hk2d,
              if_neg (by
                intro hmm
                rcases List.mem_append.mp hmm with hmm | hmm
                · exact hk2d hmm
                · exact hk2 (List.mem_singleton.mp hmm))]
    · -- genuine key: inserted fresh
      have hkey0 : rowKey kf (f k0) = k0 := h2 k0 hk0mem hstem
      have hne0 : k0 ≠ "" := h1 k0 hk0mem
      have hnotdone : k0 ∉ done := by
        intro hmm
        have hcount := h4 k0 hk0mem hstem
        rw [List.count_append] at hcount
        have hd1 : 1 ≤ done.count k0 := List.one_le_count_iff.mpr hmm
        have hd2 : 1 ≤ (k0 :: rest).count k0 := by
          rw [List.count_cons_self]
          omega
        omega
      have hnone : st.idx.lookup k0 = none := by
        rw [hidx k0, if_neg hnotdone]
      have hstep : phase1Step kf st (f k0)
          = ⟨setA st.idx k0 (f k0), done ++ [k0]⟩ := by
        rw [phase1Step_eq, hkey0, if_neg hne0, hnone]
        rw [hkeys]
        simp
      rw [hstep]
      refine ih (done ++ [k0]) ⟨setA st.idx k0 (f k0), done ++ [k0]⟩ ?_ rfl ?_
      · rw [List.append_assoc, List.singleton_append]
      · intro k2
        show (setA st.idx k0 (f k0)).lookup k2 = _
        rw [lookup_setA]
        by_cases hk2 : k2 = k0
        · rw [if_pos hk2, if_pos (by rw [hk2]; exact List.mem_append_right _ (List.mem_singleton_self k0))]
          rw [hk2]
        · rw [if_neg hk2, hidx k2]
          by_cases hk2d : k2 ∈ done
          · rw [if_pos hk2d, if_pos (List.mem_append_left _ hk2d)]
          · rw [if_neg hk2d,
              if_neg (by
                intro hmm
                rcases List.mem_append.mp hmm with hmm | hmm
                · exact hk2d hmm
                · exact hk2 (List.mem_singleton.mp hmm))]

theorem keys_len_p1 (kf : String) (st : MSt) (row : Row) :
    st.keys.length ≤ (phase1Step kf st row).keys.length := by
  rw [phase1Step_eq]
  by_cases hkey : rowKey kf row = ""
  · rw [if_pos hkey]
    simp
  · rw [if_neg hkey]
    by_cases hsome : (st.idx.lookup (rowKey kf row)).isSome
    · rw [if_pos hsome]
    · rw [if_neg hsome]
      simp

theorem keys_len_p2 (kf : String) (srcFns : List String) (st : MSt) (srow : Row) :
    st.keys.length ≤ (phase2Step kf srcFns st srow).keys.length := by
  rw [phase2Step_eq]
  by_cases hkey : rowKey kf srow = ""
  · rw [if_pos hkey]
  · rw [if_neg hkey]
    rcases hl : st.idx.lookup (rowKey kf srow) with _ | drow
    · simp
    · simp

theorem foldl_keys_len_p1 (kf : String) :
    ∀ (l : List Row) (st : MSt),
      st.keys.length ≤ ((l.foldl (phase1Step kf) st)).keys.length := by
  intro l
  induction l with
  | nil => intro st; exact Nat.le_refl _
  | cons r t ih =>
    intro st
    rw [List.foldl_cons]
    exact Nat.le_trans (keys_len_p1 kf st r) (ih (phase1Step kf st r))

theorem foldl_keys_len_p2 (kf : String) (srcFns : List String) :
    ∀ (l : List Row) (st : MSt),
      st.keys.length ≤ ((l.foldl (phase2Step kf srcFns) st)).keys.length := by
  intro l
  induction l with
  | nil => intro st; exact Nat.le_refl _
  | cons r t ih =>
    intro st
    rw [List.foldl_cons]
    exact Nat.le_trans (keys_len_p2 kf srcFns st r) (ih (phase2Step kf srcFns st r))

theorem first_step_keys (kf : String) (r : Row) :
    (phase1Step kf ⟨[], []⟩ r).keys.length = 1 := by
  rw [phase1Step_eq]
  by_cases hkey : rowKey kf r = ""
  · rw [if_pos hkey]
    rfl
  · rw [if_neg hkey]
    rw [if_neg (by simp [List.lookup])]
    rfl

theorem final_keys_ne_nil (kf : String) (srcFns : List String) (dbR srcR : List Row)
    (hne : dbR ≠ []) :
    (srcR.foldl (phase2Step kf srcFns) (dbR.foldl (phase1Step kf) ⟨[], []⟩)).keys ≠ [] := by
  rcases dbR with _ | ⟨r, rest⟩
  · exact absurd rfl hne
  · have h1 : 1 ≤ ((r :: rest).foldl (phase1Step kf) ⟨[], []⟩).keys.length := by
      rw [List.foldl_cons]
      calc 1 = (phase1Step kf ⟨[], []⟩ r).keys.length := (first_step_keys kf r).symm
        _ ≤ _ := foldl_keys_len_p1 kf rest (phase1Step kf ⟨[], []⟩ r)
    have h2 := foldl_keys_len_p2 kf srcFns srcR ((r :: rest).foldl (phase1Step kf) ⟨[], []⟩)
    intro hnil
    rw [hnil] at h2
    simp only [List.length_nil] at h2
    omega

theorem build_absorb (fns srcF : List String) (hnd : fns.Nodup)
    (hsub : ∀ x ∈ srcF, x ∈ fns) : build_fieldnames fns srcF = fns := by
  unfold build_fieldnames
  have h1 : fns.foldl insertFn [] = fns := by
    rw [foldl_insertFn_of_nodup fns [] hnd, List.nil_append]
    have h2 : ∀ x ∈ fns, (decide (x ∉ ([] : List String)) = true) := by simp
    calc fns.filter (fun x => x ∉ ([] : List String))
        = fns.filter (fun _ => true) := List.filter_congr (by simp)
      _ = fns := List.filter_true fns
  rw [h1]
  exact foldl_insertFn_of_subset srcF fns hsub

theorem second_merge_general (kf : String) (srcFns fns : List String) (srcR : List Row)
    (st1 : MSt) (hkf : kf ∈ fns) (hsub : ∀ x ∈ srcFns, x ∈ fns)
    (hInv : InvM kf st1)
    (hKeyMem : ∀ s ∈ srcR, rowKey kf s ≠ "" → (st1.idx.lookup (rowKey kf s)).isSome)
    (hFilled : ∀ s ∈ srcR, rowKey kf s ≠ "" → FilledFor kf srcFns s st1) :
    merge_rows (st1.keys.map (fun k => normalizeRow fns ((st1.idx.lookup k).getD [])))
        srcR kf srcFns
      = st1.keys.map (fun k => normalizeRow fns ((st1.idx.lookup k).getD [])) := by
  obtain ⟨ha, hb, hc, hd, he⟩ := hInv
  have h2' : ∀ k ∈ st1.keys, ¬ hasPseudoStem k →
      rowKey kf (normalizeRow fns ((st1.idx.lookup k).getD [])) = k := by
    intro k hk hs
    have hsome := (hb k).mpr hk
    rcases hl : st1.idx.lookup k with _ | r
    · rw [hl] at hsome
      simp at hsome
    · rw [Option.getD_some, rowKey_normalizeRow r fns kf hkf]
      exact (hd k r hl).1 hs
  have h3' : ∀ k ∈ st1.keys, hasPseudoStem k →
      rowKey kf (normalizeRow fns ((st1.idx.lookup k).getD [])) = "" := by
    intro k hk hs
    have hsome := (hb k).mpr hk
    rcases hl : st1.idx.lookup k with _ | r
    · rw [hl] at hsome
      simp at hsome
    · rw [Option.getD_some, rowKey_normalizeRow r fns kf hkf]
      exact (hd k r hl).2 hs
  obtain ⟨hkeysA, hidxA⟩ := phase1_map_aux kf
    (fun k => normalizeRow fns ((st1.idx.lookup k).getD []))
    st1.keys ha h2' h3' hc he st1.keys [] ⟨[], []⟩ (by rw [List.nil_append]) rfl
    (by intro k2; simp [List.lookup])
  rw [merge_rows_eq]
  have hnoop : srcR.foldl (phase2Step kf srcFns)
      ((st1.keys.map (fun k => normalizeRow fns ((st1.idx.lookup k).getD []))).foldl
        (phase1Step kf) ⟨[], []⟩)
      = (st1.keys.map (fun k => normalizeRow fns ((st1.idx.lookup k).getD []))).foldl
          (phase1Step kf) ⟨[], []⟩ := by
    apply phase2_noop
    intro srow hsrow
    by_cases hk : rowKey kf srow = ""
    · exact Or.inl hk
    · right
      have hsome := hKeyMem srow hsrow hk
      have hmem : rowKey kf srow ∈ st1.keys := (hb _).mp hsome
      refine ⟨normalizeRow fns ((st1.idx.lookup (rowKey kf srow)).getD []), ?_, ?_⟩
      · rw [hidxA (rowKey kf srow), if_pos hmem]
      · intro fn hfn
        obtain ⟨r, hl, hp⟩ := hFilled srow hsrow hk
        by_cases hsv : pyStrip (pyGet srow fn) = ""
        · exact Or.inl hsv
        · right
          rw [hl, Option.getD_some, pyGet_normalizeRow r fns fn (hsub fn hfn)]
          exact hp fn hfn hsv
  rw [hnoop, hkeysA]
  apply List.map_congr_left
  intro k hk
  rw [hidxA k, if_pos hk, Option.getD_some]

/-- C2 (counterexample): with an empty persistent table, the merge copies
the export verbatim; an export with a repeated key produces two rows, and
merging the same export again collapses them to one (the first-occurrence
rule drops the duplicate), so merging twice differs from merging once. -/
theorem c2_counterexample :
    mergeOnce
        (mergeOnce (["issue_number"], [])
          (["issue_number"], [[("issue_number", "1")], [("issue_number", "1")]]))
        (["issue_number"], [[("issue_number", "1")], [("issue_number", "1")]])
      ≠ mergeOnce (["issue_number"], [])
          (["issue_number"], [[("issue_number", "1")], [("issue_number", "1")]]) := by
  decide

/-- C2 (amended): merging the same export twice equals merging it once,
provided the persistent table is non-empty, the export header carries the
key field `issue_number` (which `main` checks before merging), and no
key in either table begins with the reserved stem `__NO_KEY__`. -/
theorem c2_idempotent :
    ∀ (dbF srcF : List String) (dbR srcR : List Row),
      dbR ≠ [] → "issue_number" ∈ srcF →
      (∀ r ∈ dbR, ¬ hasPseudoStem (rowKey "issue_number" r)) →
      (∀ s ∈ srcR, ¬ hasPseudoStem (rowKey "issue_number" s)) →
      mergeOnce (mergeOnce (dbF, dbR) (srcF, srcR)) (srcF, srcR)
        = mergeOnce (dbF, dbR) (srcF, srcR) := by
  intro dbF srcF dbR srcR hdbne hkf hdb hsrc
  have hfnd := build_fieldnames_nodup dbF srcF
  have hsub : ∀ x ∈ srcF, x ∈ build_fieldnames dbF srcF :=
    fun x hx => (build_fieldnames_mem dbF srcF x).mpr (Or.inr hx)
  have hkff := hsub _ hkf
  have hT1 : mergeOnce (dbF, dbR) (srcF, srcR)
      = (build_fieldnames dbF srcF,
        (merge_rows dbR srcR "issue_number" srcF).map
          (normalizeRow (build_fieldnames dbF srcF))) := by
    unfold mergeOnce
    dsimp only
    rw [if_neg hdbne]
  rw [hT1]
  have hT1rows : (merge_rows dbR srcR "issue_number" srcF).map
      (normalizeRow (build_fieldnames dbF srcF))
      = (srcR.foldl (phase2Step "issue_number" srcF)
          (dbR.foldl (phase1Step "issue_number") ⟨[], []⟩)).keys.map
        (fun k => normalizeRow (build_fieldnames dbF srcF)
          (((srcR.foldl (phase2Step "issue_number" srcF)
              (dbR.foldl (phase1Step "issue_number") ⟨[], []⟩)).idx.lookup k).getD [])) := by
    rw [merge_rows_eq, List.map_map]
    rfl
  have hrows_ne : (merge_rows dbR srcR "issue_number" srcF).map
      (normalizeRow (build_fieldnames dbF srcF)) ≠ [] := by
    rw [hT1rows]
    intro h
    exact final_keys_ne_nil "issue_number" srcF dbR srcR hdbne (List.map_eq_nil_iff.mp h)
  have hsecond : merge_rows ((merge_rows dbR srcR "issue_number" srcF).map
      (normalizeRow (build_fieldnames dbF srcF))) srcR "issue_number" srcF
      = (merge_rows dbR srcR "issue_number" srcF).map
          (normalizeRow (build_fieldnames dbF srcF)) := by
    rw [hT1rows]
    apply second_merge_general "issue_number" srcF (build_fieldnames dbF srcF) srcR
      (srcR.foldl (phase2Step "issue_number" srcF)
        (dbR.foldl (phase1Step "issue_number") ⟨[], []⟩)) hkff hsub
      (InvM_final "issue_number" srcF dbR srcR hdb hsrc)
    · intro s hs hk
      exact key_isSome_final "issue_number" srcF dbR srcR (rowKey "issue_number" s) hk
        (Or.inr ⟨s, hs, rfl⟩)
    · intro s hs hk
      exact FilledFor_final "issue_number" srcF dbR srcR s hs hk
  have hmapidem : ((merge_rows dbR srcR "issue_number" srcF).map
      (normalizeRow (build_fieldnames dbF srcF))).map
        (normalizeRow (build_fieldnames dbF srcF))
      = (merge_rows dbR srcR "issue_number" srcF).map
          (normalizeRow (build_fieldnames dbF srcF)) := by
    rw [List.map_map]
    apply List.map_congr_left
    intro r _
    exact normalizeRow_idem (build_fieldnames dbF srcF) r
  show mergeOnce (build_fieldnames dbF srcF,
      (merge_rows dbR srcR "issue_number" srcF).map
        (normalizeRow (build_fieldnames dbF srcF))) (srcF, srcR) = _
  unfold mergeOnce
  dsimp only
  rw [if_neg hrows_ne]
  rw [build_absorb (build_fieldnames dbF srcF) srcF hfnd hsub]
  rw [hsecond, hmapidem]

/-- C2 witness at concrete tables. -/
theorem c2_idempotent_witness :
    mergeOnce
        (mergeOnce (["issue_number", "domain"], [[("issue_number", "5"), ("domain", "old.com")]])
          (["issue_number", "domain"], [[("issue_number", "5"), ("domain", "new.com")],
            [("issue_number", "6"), ("domain", "x.org")]]))
        (["issue_number", "domain"], [[("issue_number", "5"), ("domain", "new.com")],
          [("issue_number", "6"), ("domain", "x.org")]])
      = mergeOnce (["issue_number", "domain"], [[("issue_number", "5"), ("domain", "old.com")]])
          (["issue_number", "domain"], [[("issue_number", "5"), ("domain", "new.com")],
            [("issue_number", "6"), ("domain", "x.org")]]) :=
  c2_idempotent ["issue_number", "domain"] ["issue_number", "domain"]
    [[("issue_number", "5"), ("domain", "old.com")]]
    [[("issue_number", "5"), ("domain", "new.com")], [("issue_number", "6"), ("domain", "x.org")]]
    (by decide) (by decide)
    (by intro r hr; rw [List.mem_singleton.mp hr]; decide)
    (by
      intro s hs
      rcases List.mem_cons.mp hs with rfl | hs2
      · decide
      · rw [List.mem_singleton.mp hs2]
        decide)
